import Mathlib

/-!
# NaviceGWT: the tagged-JSON transformer of `main.go`

A shallow embedding of `transformMap`, `transformValue`, `transformList` and the four
scalar rules of `src/main.go`, followed by the properties proved about them.

Conventions of the embedding

* A Go `interface{}` holding a decoded JSON value is the inductive type `Any`, with one
  constructor per dynamic type that the program can meet or produce.
* A Go `map[string]interface{}` is its list of entries, in the order in which the `range`
  loop over that map visits them.  Go leaves that order unspecified, so a statement about
  "every map" quantifies over every list; a Go map has no repeated key, and a statement that
  needs this says so with the hypothesis `(MapKeys m).Nodup`.
* A Go result pair `(value, error)` is `Except GoError value`.  Every caller in `main.go`
  discards the value when the error is not nil, so nothing is lost.
* A Go `string` is a Lean `String`, a sequence of Unicode code points (`encoding/json`
  only ever produces valid UTF-8).
* The standard-library routines whose behaviour is a table or a parser (`unicode` case
  tables, `time.Parse`, `strconv.ParseFloat`) are fields of `GoLib`.  The theorems on the
  program hold for every `GoLib`; `goLib` is the instance used to run the program on concrete
  documents, and the theorems on which texts are timestamps or numbers are about it.
-/

set_option autoImplicit false

/-! ## Data model -/

/-- An IEEE-754 binary64 value: not-a-number, an infinity, or the finite number
`(-1)^negative * mant * 2^exp`. -/
inductive Float64 where
  | nan
  | inf (negative : Bool)
  | finite (negative : Bool) (mant : Nat) (exp : Int)
  deriving DecidableEq, Repr

/-- A Go `interface{}` value: the nil interface, or a `bool`, `float64`, `int64`, `string`,
`[]interface{}` or `map[string]interface{}`. -/
inductive Any where
  | nil
  | bool (b : Bool)
  | float64 (x : Float64)
  | int64 (n : Int)
  | string (s : String)
  | slice (items : List Any)
  | map (entries : List (String × Any))
  deriving Repr

/-- A Go `map[string]interface{}`, as its entries in iteration order. -/
abbrev GoMap := List (String × Any)

/-- The keys of a map, in iteration order. -/
def MapKeys (m : GoMap) : List String := m.map Prod.fst

/-- The Go statement `m[key] = v`: overwrite the entry of `key`, or add one. -/
def mapAssign : GoMap → String → Any → GoMap
  | [], key, v => [(key, v)]
  | (k, w) :: rest, key, v =>
    if k = key then (k, v) :: rest else (k, w) :: mapAssign rest key v

/-- The errors of the program: `var InvalidValueError = errors.New("invalid value")`. -/
inductive GoError where
  | InvalidValueError
  deriving DecidableEq, Repr

/-- The standard-library behaviour that `main.go` relies on and that is given by tables or
parsers outside the repository. -/
structure GoLib where
  /-- The lookup `unicode.To(unicode.LowerCase, r)` in `unicode.CaseRanges`, used by
  `unicode.ToLower` for runes above `unicode.MaxASCII`. -/
  caseTable : Char → Char
  /-- The call `time.Parse(time.RFC3339, s)` followed by `Unix()`: the seconds since the epoch
  when the parse returns no error. -/
  parseRFC3339 : String → Option Int
  /-- The call `strconv.ParseFloat(s, 64)`: the number when it returns no error. -/
  parseFloat : String → Option Float64

/-! ## Standard-library string routines -/

/-- Go `unicode.IsSpace`: the Latin-1 spaces, then the `White_Space` table. -/
def unicode.IsSpace (r : Char) : Bool :=
  let n := r.toNat
  if n ≤ 0xFF then
    decide (n = 0x09 ∨ n = 0x0A ∨ n = 0x0B ∨ n = 0x0C ∨ n = 0x0D ∨ n = 0x20 ∨ n = 0x85 ∨ n = 0xA0)
  else
    decide (n = 0x1680 ∨ (0x2000 ≤ n ∧ n ≤ 0x200A) ∨ n = 0x2028 ∨ n = 0x2029 ∨ n = 0x202F
      ∨ n = 0x205F ∨ n = 0x3000)

/-- Go `unicode.ToLower`: ASCII is handled inline, everything else through the case table. -/
def unicode.ToLower (lib : GoLib) (r : Char) : Char :=
  if r.toNat ≤ 0x7F then
    if 'A'.toNat ≤ r.toNat ∧ r.toNat ≤ 'Z'.toNat then Char.ofNat (r.toNat + ('a'.toNat - 'A'.toNat))
    else r
  else lib.caseTable r

/-- Go `strings.TrimSpace`: drop the leading and the trailing white space. -/
def strings.TrimSpace (s : String) : String :=
  ⟨(s.data.dropWhile unicode.IsSpace).rdropWhile unicode.IsSpace⟩

/-- Go `strings.ToLower`: every rune mapped through `unicode.ToLower`. -/
def strings.ToLower (lib : GoLib) (s : String) : String :=
  ⟨s.data.map (unicode.ToLower lib)⟩

/-- Go `slices.Contains`. -/
def slices.Contains (xs : List String) (s : String) : Bool :=
  xs.any (fun x => decide (x = s))

/-! ## The program -/

/-- The list `truthyBooleanValues` of `main.go`. -/
def truthyBooleanValues : List String := ["1", "t", "T", "true", "TRUE", "True"]

/-- The list `falsyBooleanValues` of `main.go`. -/
def falsyBooleanValues : List String := ["0", "f", "F", "false", "FALSE", "False"]

/-- The function `transformString` of `main.go`. -/
def transformString (lib : GoLib) (s : String) : Except GoError Any :=
  let s := strings.TrimSpace s
  if s = "" then .error .InvalidValueError
  else
    match lib.parseRFC3339 s with
    | some unix => .ok (.int64 unix)
    | none => .ok (.string s)

/-- The function `transformNumber` of `main.go`. -/
def transformNumber (lib : GoLib) (s : String) : Except GoError Any :=
  let s := strings.TrimSpace s
  match lib.parseFloat s with
  | some n => .ok (.float64 n)
  | none => .error .InvalidValueError

/-- The function `transformBool` of `main.go`. -/
def transformBool (lib : GoLib) (s : String) : Except GoError Any :=
  let s := strings.TrimSpace (strings.ToLower lib s)
  if slices.Contains truthyBooleanValues s then .ok (.bool true)
  else if slices.Contains falsyBooleanValues s then .ok (.bool false)
  else .error .InvalidValueError

/-- The function `transformNull` of `main.go`. -/
def transformNull (lib : GoLib) (s : String) : Except GoError Any :=
  let s := strings.TrimSpace (strings.ToLower lib s)
  if slices.Contains truthyBooleanValues s then .ok .nil
  else .error .InvalidValueError

mutual
/-- The `for key, value := range originalMap` loop of `transformMap`, with the map built so
far as its second argument; each `continue` is the call on the remaining entries. -/
def transformMapLoop (lib : GoLib) : GoMap → GoMap → GoMap
  | [], transformedMap => transformedMap
  | (key, value) :: rest, transformedMap =>
    if key = "" then transformMapLoop lib rest transformedMap
    else
      match value with
      | .map valueMap =>
        match transformValue lib valueMap with
        | .error _ => transformMapLoop lib rest transformedMap
        | .ok v => transformMapLoop lib rest (mapAssign transformedMap key v)
      | _ => transformMapLoop lib rest transformedMap

/-- The function `transformValue` of `main.go`: the `range` loop over the entries of the node
with its `switch dataType`.  The call `transformMap(v)` of case `"M"` is written as the body of
`transformMap`, the loop started on the empty map (see `transformValue_M`). -/
def transformValue (lib : GoLib) : GoMap → Except GoError Any
  | [] => .ok .nil
  | (dataType, val) :: rest =>
    if dataType = "S" then
      match val with
      | .string valStr => transformString lib valStr
      | _ => transformValue lib rest
    else if dataType = "N" then
      match val with
      | .string valStr => transformNumber lib valStr
      | _ => transformValue lib rest
    else if dataType = "BOOL" then
      match val with
      | .string valStr => transformBool lib valStr
      | _ => transformValue lib rest
    else if dataType = "NULL" then
      match val with
      | .string valStr => transformNull lib valStr
      | _ => transformValue lib rest
    else if dataType = "L" then transformList lib val
    else if dataType = "M" then
      match val with
      | .map v => .ok (.map (transformMapLoop lib v []))
      | _ => transformValue lib rest
    else transformValue lib rest

/-- The function `transformList` of `main.go`.  On a value that is not a `[]interface{}` Go
returns the nil slice together with `InvalidValueError`. -/
def transformList (lib : GoLib) : Any → Except GoError Any
  | .slice items => .ok (.slice (transformListLoop lib items []))
  | _ => .error .InvalidValueError

/-- The `for _, item := range items` loop of `transformList`, with the slice built so far as
its second argument. -/
def transformListLoop (lib : GoLib) : List Any → List Any → List Any
  | [], transformedList => transformedList
  | item :: rest, transformedList =>
    match item with
    | .map itemMap =>
      match transformValue lib itemMap with
      | .error _ => transformListLoop lib rest transformedList
      | .ok .nil => transformListLoop lib rest transformedList
      | .ok transformedItem => transformListLoop lib rest (transformedList ++ [transformedItem])
    | _ => transformListLoop lib rest transformedList
end

/-- The function `transformMap` of `main.go`; its error result is always nil. -/
def transformMap (lib : GoLib) (originalMap : GoMap) : Except GoError GoMap :=
  .ok (transformMapLoop lib originalMap [])

/-! ## A concrete standard library

The instance `goLib` follows the Go sources of `time.Parse` (for the layout
`time.RFC3339`) and of `strconv.ParseFloat`; it is what the program is run with on concrete
inputs.  Text is handled as a list of characters. -/

/-- Go `isDigit` of package `time` (and the digit test of `strconv`). -/
def time.isDigit (c : Char) : Bool :=
  decide ('0'.toNat ≤ c.toNat ∧ c.toNat ≤ '9'.toNat)

/-- The value of a decimal digit, `c - '0'`. -/
def time.digit (c : Char) : Nat := c.toNat - '0'.toNat

/-- Go `getnum`: one or two leading digits; with `fixed`, exactly two. -/
def time.getnum (value : List Char) (fixed : Bool) : Option (Nat × List Char) :=
  match value with
  | [] => none
  | a :: rest =>
    if time.isDigit a then
      match rest with
      | [] => if fixed then none else some (time.digit a, [])
      | b :: rest2 =>
        if time.isDigit b then some (time.digit a * 10 + time.digit b, rest2)
        else if fixed then none else some (time.digit a, rest)
    else none

/-- Go `skip` for a one-character literal of the layout. -/
def time.skip (value : List Char) (lit : Char) : Option (List Char) :=
  match value with
  | [] => none
  | c :: rest => if c = lit then some rest else none

/-- The layout element `2006`: exactly four digits. -/
def time.getyear (value : List Char) : Option (Nat × List Char) :=
  match value with
  | a :: b :: c :: d :: rest =>
    if time.isDigit a && time.isDigit b && time.isDigit c && time.isDigit d then
      some (((time.digit a * 10 + time.digit b) * 10 + time.digit c) * 10 + time.digit d, rest)
    else none
  | _ => none

/-- A fractional second in the input that the layout does not mention: a period or comma
followed by at least one digit is consumed together with all the digits after it. -/
def time.skipFraction (value : List Char) : List Char :=
  match value with
  | sep :: d :: rest =>
    if (sep = '.' ∨ sep = ',') ∧ time.isDigit d = true then rest.dropWhile time.isDigit
    else value
  | _ => value

/-- The layout element `Z07:00`: the letter Z, or a sign, two digits, a colon and two digits.
The result is the offset east of UTC in seconds. -/
def time.getzone (value : List Char) : Option (Int × List Char) :=
  match value with
  | 'Z' :: rest => some (0, rest)
  | sign :: h1 :: h2 :: colon :: m1 :: m2 :: rest =>
    if colon ≠ ':' then none
    else
      match time.getnum [h1, h2] true, time.getnum [m1, m2] true with
      | some (hr, _), some (mm, _) =>
        if 24 < hr ∨ 60 < mm then none
        else if sign = '+' then some ((((hr * 60 + mm) * 60 : Nat) : Int), rest)
        else if sign = '-' then some (-(((hr * 60 + mm) * 60 : Nat) : Int), rest)
        else none
      | _, _ => none
  | _ => none

/-- Go `isLeap`. -/
def time.isLeap (year : Nat) : Bool :=
  year % 4 = 0 && (year % 100 != 0 || year % 400 = 0)

/-- Go `daysIn`. -/
def time.daysIn (month year : Nat) : Nat :=
  if month = 2 then (if time.isLeap year then 29 else 28)
  else if month = 4 ∨ month = 6 ∨ month = 9 ∨ month = 11 then 30
  else 31

/-- The days of a common year that precede the first day of `month`. -/
def time.daysBefore (month : Nat) : Nat :=
  [0, 31, 59, 90, 120, 151, 181, 212, 243, 273, 304, 334].getD (month - 1) 0

/-- The days from 1970-01-01 to the given date of the proleptic Gregorian calendar. -/
def time.daysSinceEpoch (year month day : Nat) : Int :=
  (365 * year + (year + 3) / 4 + (year + 399) / 400 + time.daysBefore month
      + (if 2 < month ∧ time.isLeap year = true then 1 else 0) + day : Nat)
    - ((year + 99) / 100 : Nat) - 1 - 719528

/-- The layout elements `2006-01-02`: the year, the month in 1..12 and the day, which is
checked against the month once the whole text is read. -/
def time.getdate (value : List Char) : Option (Nat × Nat × Nat × List Char) :=
  match time.getyear value with
  | none => none
  | some (year, value) =>
    match time.skip value '-' with
    | none => none
    | some value =>
      match time.getnum value true with
      | none => none
      | some (month, value) =>
        if month = 0 ∨ 12 < month then none
        else
          match time.skip value '-' with
          | none => none
          | some value =>
            match time.getnum value true with
            | none => none
            | some (day, value) => some (year, month, day, value)

/-- The layout elements `T15:04:05`: the hour below 24 in one or two digits, the minute and
the second below 60, then the fractional second if the text has one. -/
def time.getclock (value : List Char) : Option (Nat × Nat × Nat × List Char) :=
  match time.skip value 'T' with
  | none => none
  | some value =>
    match time.getnum value false with
    | none => none
    | some (hour, value) =>
      if 24 ≤ hour then none
      else
        match time.skip value ':' with
        | none => none
        | some value =>
          match time.getnum value true with
          | none => none
          | some (min, value) =>
            if 60 ≤ min then none
            else
              match time.skip value ':' with
              | none => none
              | some value =>
                match time.getnum value true with
                | none => none
                | some (sec, value) =>
                  if 60 ≤ sec then none
                  else some (hour, min, sec, time.skipFraction value)

/-- Go `time.Parse(time.RFC3339, s)` followed by `Unix()`, on the characters of `s`: the
date, the clock and the zone, no text left over, and a day that the month has. -/
def time.parseRFC3339Chars (value : List Char) : Option Int :=
  match time.getdate value with
  | none => none
  | some (year, month, day, value) =>
    match time.getclock value with
    | none => none
    | some (hour, min, sec, value) =>
      match time.getzone value with
      | none => none
      | some (zoneOffset, value) =>
        if value ≠ [] then none
        else if day < 1 ∨ time.daysIn month year < day then none
        else
          some (time.daysSinceEpoch year month day * 86400
            + (hour * 3600 + min * 60 + sec : Nat) - zoneOffset)

/-- Go `time.Parse(time.RFC3339, s)` followed by `Unix()`. -/
def time.ParseRFC3339 (s : String) : Option Int :=
  time.parseRFC3339Chars s.data

/-- Go `lower` of package `strconv`: `c | ('x' - 'X')`. -/
def strconv.lower (c : Char) : Char := Char.ofNat (c.toNat ||| 0x20)

/-- The test `'a' <= lower(c) && lower(c) <= 'f'` for a hexadecimal letter. -/
def strconv.isHexLetter (c : Char) : Bool :=
  decide ('a'.toNat ≤ (strconv.lower c).toNat ∧ (strconv.lower c).toNat ≤ 'f'.toNat)

/-- The folding of `commonPrefixLenIgnoreCase`: an ASCII capital becomes the small letter. -/
def strconv.foldAscii (c : Char) : Char :=
  if 'A'.toNat ≤ c.toNat ∧ c.toNat ≤ 'Z'.toNat then Char.ofNat (c.toNat + 32) else c

/-- Go `commonPrefixLenIgnoreCase(s, word) == len(word)` together with `len(s) == len(word)`:
the text is `word` up to the case of ASCII letters. -/
def strconv.equalFold (s : List Char) (word : String) : Bool :=
  s.map strconv.foldAscii == word.data

/-- Go `special`, for a text that it must consume whole: an optionally signed `inf` or
`infinity`, or an unsigned `nan`, in any case. -/
def strconv.special (s : List Char) : Option Float64 :=
  let isInf := fun (t : List Char) => strconv.equalFold t "inf" || strconv.equalFold t "infinity"
  match s with
  | [] => none
  | '+' :: rest => if isInf rest then some (.inf false) else none
  | '-' :: rest => if isInf rest then some (.inf true) else none
  | _ =>
    if isInf s then some (.inf false)
    else if strconv.equalFold s "nan" then some .nan
    else none

/-- The variables of the mantissa loop of Go `readFloat`.  The mantissa keeps every digit (Go
keeps 19 and remembers that it truncated, to the same final result). -/
structure strconv.Scan where
  mantissa : Nat
  nd : Nat
  dp : Int
  sawdot : Bool
  sawdigits : Bool
  underscores : Bool

/-- The mantissa loop of Go `readFloat`: the state at the first character that is not part of
the mantissa, and the text from that character on. -/
def strconv.readMantissa (hex : Bool) : List Char → strconv.Scan → strconv.Scan × List Char
  | [], st => (st, [])
  | c :: cs, st =>
    if c = '_' then strconv.readMantissa hex cs { st with underscores := true }
    else if c = '.' then
      if st.sawdot then (st, c :: cs)
      else strconv.readMantissa hex cs { st with sawdot := true, dp := st.nd }
    else if time.isDigit c then
      if c = '0' ∧ st.nd = 0 then
        strconv.readMantissa hex cs { st with sawdigits := true, dp := st.dp - 1 }
      else
        strconv.readMantissa hex cs { st with
          sawdigits := true, nd := st.nd + 1,
          mantissa := st.mantissa * (if hex then 16 else 10) + time.digit c }
    else if hex && strconv.isHexLetter c then
      strconv.readMantissa hex cs { st with
        sawdigits := true, nd := st.nd + 1,
        mantissa := st.mantissa * 16 + ((strconv.lower c).toNat - 'a'.toNat + 10) }
    else (st, c :: cs)

/-- The exponent loop of Go `readFloat`: digits and underscores, the value no longer updated
once it has reached 10000. -/
def strconv.readExponent : List Char → Nat → Bool → Nat × Bool × List Char
  | [], e, underscores => (e, underscores, [])
  | c :: cs, e, underscores =>
    if c = '_' then strconv.readExponent cs e true
    else if time.isDigit c then
      strconv.readExponent cs (if e < 10000 then e * 10 + time.digit c else e) underscores
    else (e, underscores, c :: cs)

/-- The scan of Go `underscoreOK` over the number proper; `saw` is the kind of the last
character: `'0'` a digit or base prefix, `'_'` an underscore, `'!'` anything else. -/
def strconv.underscoreScan (hex : Bool) : List Char → Char → Bool
  | [], saw => saw != '_'
  | c :: cs, saw =>
    if time.isDigit c || (hex && strconv.isHexLetter c) then strconv.underscoreScan hex cs '0'
    else if c = '_' then
      if saw != '0' then false else strconv.underscoreScan hex cs '_'
    else if saw = '_' then false
    else strconv.underscoreScan hex cs '!'

/-- Go `underscoreOK`: underscores only between digits, or between a base prefix and a digit. -/
def strconv.underscoreOK (s : List Char) : Bool :=
  let s := match s with
    | '-' :: rest => rest
    | '+' :: rest => rest
    | _ => s
  match s with
  | '0' :: b :: rest =>
    if strconv.lower b = 'b' ∨ strconv.lower b = 'o' ∨ strconv.lower b = 'x' then
      strconv.underscoreScan (strconv.lower b = 'x') rest '0'
    else strconv.underscoreScan false s '^'
  | _ => strconv.underscoreScan false s '^'

/-- The number of binary digits of `n`, found in at most `fuel` halvings. -/
def strconv.bitLen : Nat → Nat → Nat
  | 0, _ => 0
  | fuel + 1, n => if n = 0 then 0 else strconv.bitLen fuel (n / 2) + 1

/-- The binary64 nearest to the positive rational `num / den`, ties to the even significand,
as a 53-bit significand and an exponent; `none` when the result is beyond the largest finite
binary64, where Go reports `ErrRange`. -/
def strconv.roundBinary64 (num den : Nat) : Option (Nat × Int) :=
  if num = 0 then some (0, -1074)
  else
    let l0 : Int := (strconv.bitLen num num : Int) - (strconv.bitLen den den : Int)
    let l : Int := if den * 2 ^ l0.toNat ≤ num * 2 ^ (-l0).toNat then l0 else l0 - 1
    let e : Int := max (l - 52) (-1074)
    let n := num * 2 ^ (-e).toNat
    let d := den * 2 ^ e.toNat
    let q := n / d
    let r := n % d
    let m := if 2 * r < d then q else if d < 2 * r then q + 1 else q + q % 2
    let (m, e) := if m = 2 ^ 53 then (2 ^ 52, e + 1) else (m, e)
    if 971 < e then none else some (m, e)

/-- The exponent of Go `readFloat`, read from the text that follows the mantissa: the letter
`e` (`p` for a hexadecimal mantissa), an optional sign and at least one digit; a hexadecimal
mantissa must have it.  The result is the signed exponent, whether an underscore was seen so
far, and the text left over. -/
def strconv.readExponentPart (hex underscores : Bool) (rest : List Char) :
    Option (Int × Bool × List Char) :=
  match rest with
  | [] => if hex then none else some (0, underscores, [])
  | c :: cs =>
    if strconv.lower c = (if hex then 'p' else 'e') then
      let signed : Int × List Char := match cs with
        | '+' :: t => (1, t)
        | '-' :: t => (-1, t)
        | _ => (1, cs)
      match signed.2 with
      | [] => none
      | d :: _ =>
        if time.isDigit d then
          let scanned := strconv.readExponent signed.2 0 underscores
          some (signed.1 * scanned.1, scanned.2.1, scanned.2.2)
        else none
    else if hex then none
    else some (0, underscores, rest)

/-- The optional sign of Go `readFloat`: whether the number is negative, and the text after
the sign. -/
def strconv.readSign (s : List Char) : Bool × List Char :=
  match s with
  | '+' :: rest => (false, rest)
  | '-' :: rest => (true, rest)
  | _ => (false, s)

/-- The optional base of Go `readFloat`: the two characters `0x` followed by at least one more
announce a hexadecimal mantissa.  The result is whether they do, and the text of the
mantissa. -/
def strconv.readBase (body : List Char) : Bool × List Char :=
  match body with
  | '0' :: x :: d :: rest => if strconv.lower x = 'x' then (true, d :: rest) else (false, body)
  | _ => (false, body)

/-- Go `readFloat` on a text that it must consume whole: the sign, the base, the mantissa and
the exponent.  The result is the sign and the exact value of the text as a fraction
`num / den`. -/
def strconv.readFloat (s : List Char) : Option (Bool × Nat × Nat) :=
  if s = [] then none
  else
    let signed := strconv.readSign s
    let based := strconv.readBase signed.2
    let scanned := strconv.readMantissa based.1 based.2 ⟨0, 0, 0, false, false, false⟩
    if !scanned.1.sawdigits then none
    else
      match strconv.readExponentPart based.1 scanned.1.underscores scanned.2 with
      | none => none
      | some (e, underscores, tail) =>
        if tail ≠ [] then none
        else if underscores && !strconv.underscoreOK s then none
        else
          let dp : Int := if scanned.1.sawdot then scanned.1.dp else scanned.1.nd
          let exp : Int :=
            if based.1 then 4 * (dp - scanned.1.nd) + e else dp - scanned.1.nd + e
          let base : Nat := if based.1 then 2 else 10
          some (signed.1, scanned.1.mantissa * base ^ exp.toNat, base ^ (-exp).toNat)

/-- Go `strconv.ParseFloat(s, 64)` on the characters of `s`: `special`, then `readFloat` on
the whole text, then the correctly rounded value. -/
def strconv.parseFloatChars (s : List Char) : Option Float64 :=
  match strconv.special s with
  | some f => some f
  | none =>
    match strconv.readFloat s with
    | none => none
    | some (neg, num, den) =>
      match strconv.roundBinary64 num den with
      | some (m, e) => some (.finite neg m e)
      | none => none

/-- Go `strconv.ParseFloat(s, 64)`: the number when the error is nil. -/
def strconv.ParseFloat (s : String) : Option Float64 :=
  strconv.parseFloatChars s.data

/-- An excerpt of `unicode.CaseRanges`: the entries for the Latin-1, Greek and Cyrillic
capitals and for the three letter-like signs.  Every other rune is left as it is, also the
capitals of the blocks that are not copied (U+0100 for one), which Go lower-cases: the results
about the program hold for every table, and this one only runs the examples. -/
def unicode.caseTable (r : Char) : Char :=
  let n := r.toNat
  if (0xC0 ≤ n ∧ n ≤ 0xDE ∧ n ≠ 0xD7) ∨ (0x391 ≤ n ∧ n ≤ 0x3AB ∧ n ≠ 0x3A2)
      ∨ (0x410 ≤ n ∧ n ≤ 0x42F) then Char.ofNat (n + 32)
  else if 0x400 ≤ n ∧ n ≤ 0x40F then Char.ofNat (n + 80)
  else if n = 0x130 then 'i'
  else if n = 0x2126 then Char.ofNat 0x3C9
  else if n = 0x212A then 'k'
  else if n = 0x212B then Char.ofNat 0xE5
  else r

/-- The standard library used to run the program on concrete documents. -/
def goLib : GoLib where
  caseTable := unicode.caseTable
  parseRFC3339 := time.ParseRFC3339
  parseFloat := strconv.ParseFloat

/-! ## Notions used to state the properties -/

/-- What `transformMap` makes of one entry of its input: nothing for an empty key, for a value
that is not a mapping and for a node on which `transformValue` fails; otherwise the key with
the transformed value. -/
def mapEntryResult (lib : GoLib) (e : String × Any) : Option (String × Any) :=
  if e.1 = "" then none
  else
    match e.2 with
    | .map node =>
      match transformValue lib node with
      | .ok v => some (e.1, v)
      | .error _ => none
    | _ => none

/-- What `transformList` makes of one element of its input: nothing for an element that is not
a mapping, for a node on which `transformValue` fails and for a node whose result is null;
otherwise the transformed value. -/
def listItemResult (lib : GoLib) (item : Any) : Option Any :=
  match item with
  | .map node =>
    match transformValue lib node with
    | .ok .nil => none
    | .ok v => some v
    | .error _ => none
  | _ => none

/-- The test of section 4.2 of the spec on one entry of a node: the key is one of the six
discriminators and the payload has the shape that this discriminator requires. -/
def specQualifies (e : String × Any) : Bool :=
  if e.1 = "S" ∨ e.1 = "N" ∨ e.1 = "BOOL" ∨ e.1 = "NULL" then
    match e.2 with
    | .string _ => true
    | _ => false
  else if e.1 = "L" then
    match e.2 with
    | .slice _ => true
    | _ => false
  else if e.1 = "M" then
    match e.2 with
    | .map _ => true
    | _ => false
  else false

/-- The test that the code applies to one entry of a node: as `specQualifies`, except that an
entry with key `L` is taken whatever its payload. -/
def entryDecides (e : String × Any) : Bool :=
  if e.1 = "S" ∨ e.1 = "N" ∨ e.1 = "BOOL" ∨ e.1 = "NULL" then
    match e.2 with
    | .string _ => true
    | _ => false
  else if e.1 = "L" then true
  else if e.1 = "M" then
    match e.2 with
    | .map _ => true
    | _ => false
  else false

/-- The rule that an entry of a node selects: the scalar rule of its discriminator on a string
payload, `transformList` for `L`, `transformMap` for `M` on a mapping. -/
def applyRule (lib : GoLib) (e : String × Any) : Except GoError Any :=
  match e.2 with
  | .string s =>
    if e.1 = "S" then transformString lib s
    else if e.1 = "N" then transformNumber lib s
    else if e.1 = "BOOL" then transformBool lib s
    else if e.1 = "NULL" then transformNull lib s
    else if e.1 = "L" then transformList lib e.2
    else .ok .nil
  | .map m =>
    if e.1 = "M" then
      match transformMap lib m with
      | .ok out => .ok (.map out)
      | .error err => .error err
    else if e.1 = "L" then transformList lib e.2
    else .ok .nil
  | _ => if e.1 = "L" then transformList lib e.2 else .ok .nil

/-- The function `transformValue` as section 4.2 of the spec words it: the rule of the first
entry that passes `specQualifies`, and `(nil, no error)` when there is none. -/
def specTransformValue (lib : GoLib) (node : GoMap) : Except GoError Any :=
  match node.find? specQualifies with
  | some e => applyRule lib e
  | none => .ok .nil

mutual
/-- No mapping inside the value has the empty string as a key. -/
def Any.noEmptyKey : Any → Bool
  | .slice items => Any.noEmptyKeyItems items
  | .map entries => Any.noEmptyKeyEntries entries
  | _ => true

/-- No mapping inside the elements of a sequence has the empty string as a key. -/
def Any.noEmptyKeyItems : List Any → Bool
  | [] => true
  | item :: rest => Any.noEmptyKey item && Any.noEmptyKeyItems rest

/-- No entry has the empty key, and neither has a mapping inside a value of the entries. -/
def Any.noEmptyKeyEntries : List (String × Any) → Bool
  | [] => true
  | (key, value) :: rest => key != "" && Any.noEmptyKey value && Any.noEmptyKeyEntries rest
end

/-- Every character of the text is white space. -/
def allSpace (cs : List Char) : Bool := cs.all unicode.IsSpace

/-- An ASCII capital letter. -/
def isAsciiUpper (c : Char) : Bool := decide ('A'.toNat ≤ c.toNat ∧ c.toNat ≤ 'Z'.toNat)

/-! ## Example documents -/

/-- A document with an empty key, a value that is not a mapping, a failing node, a string node
and a null node. -/
def exampleDoc : GoMap :=
  [("", Any.map [("S", Any.string "a")]), ("n", Any.string "x"),
    ("bad", Any.map [("N", Any.string "x")]), ("ok", Any.map [("S", Any.string "a")]),
    ("null", Any.map [("NULL", Any.string "true")])]

/-- A node without deciding entry: an unknown key, and `S` with a number as payload. -/
def inertNode : GoMap :=
  [("X", Any.string "foo"), ("S", Any.float64 (.finite false (5 * 2 ^ 50) (-50)))]

/-- A document that holds a string node and, under key `k`, the node `inertNode`. -/
def inertDoc : GoMap :=
  [("a", Any.map [("S", Any.string "x")]), ("k", Any.map inertNode)]

/-! ## Properties of every value inside a value -/

mutual
/-- The property `P` holds of the value and of every value inside it: the elements of a
sequence, the values of a mapping, at any depth. -/
def Any.Forall (P : Any → Prop) : Any → Prop
  | .slice items => P (.slice items) ∧ Any.ForallItems P items
  | .map entries => P (.map entries) ∧ Any.ForallEntries P entries
  | .nil => P .nil
  | .bool b => P (.bool b)
  | .float64 x => P (.float64 x)
  | .int64 n => P (.int64 n)
  | .string s => P (.string s)

/-- The property `P` holds everywhere inside each element of the sequence. -/
def Any.ForallItems (P : Any → Prop) : List Any → Prop
  | [] => True
  | item :: rest => Any.Forall P item ∧ Any.ForallItems P rest

/-- The property `P` holds everywhere inside each value of the entries. -/
def Any.ForallEntries (P : Any → Prop) : List (String × Any) → Prop
  | [] => True
  | (_, value) :: rest => Any.Forall P value ∧ Any.ForallEntries P rest
end

/-- A sequence does not hold the null value as an element. -/
def Any.noNullElement : Any → Prop
  | .slice items => Any.nil ∉ items
  | _ => True

/-- A string value is not empty, does not start or end with white space, and is not parsed as
a timestamp by the library. -/
def Any.cleanString (lib : GoLib) : Any → Prop
  | .string t =>
    t ≠ "" ∧ (∀ c, t.data.head? = some c → unicode.IsSpace c = false) ∧
      (∀ c, t.data.getLast? = some c → unicode.IsSpace c = false) ∧ lib.parseRFC3339 t = none
  | _ => True

/-- The binary64 value is a finite number. -/
def Float64.isFinite : Float64 → Bool
  | .finite _ _ _ => true
  | _ => false

/-- A number is a value that the library returns for some text. -/
def Any.parsedNumber (lib : GoLib) : Any → Prop
  | .float64 x => ∃ s, lib.parseFloat s = some x
  | _ => True

/-- A number is finite. -/
def Any.finiteNumber : Any → Prop
  | .float64 x => x.isFinite = true
  | _ => True

/-- The hypotheses under which a property holds of every value of the output: it holds of the
results of the four scalar rules, of null, of every sequence without null element and of every
mapping without empty key. -/
structure OutputProperty (lib : GoLib) (P : Any → Prop) : Prop where
  string : ∀ s v, transformString lib s = .ok v → P v
  number : ∀ s v, transformNumber lib s = .ok v → P v
  bool : ∀ s v, transformBool lib s = .ok v → P v
  null : ∀ s v, transformNull lib s = .ok v → P v
  inert : P Any.nil
  slice : ∀ items, Any.nil ∉ items → P (Any.slice items)
  map : ∀ entries, "" ∉ MapKeys entries → P (Any.map entries)

/-- The value is not a sequence and not a mapping. -/
def Any.isScalar : Any → Bool
  | .slice _ => false
  | .map _ => false
  | _ => true

/-! ## Sizes of values -/

mutual
/-- The number of values in a value, itself included. -/
def Any.size : Any → Nat
  | .slice items => 1 + Any.sizeItems items
  | .map entries => 1 + Any.sizeEntries entries
  | _ => 1

/-- The number of values in the elements of a sequence. -/
def Any.sizeItems : List Any → Nat
  | [] => 0
  | item :: rest => Any.size item + Any.sizeItems rest

/-- The number of entries of a mapping plus the number of values in their values. -/
def Any.sizeEntries : List (String × Any) → Nat
  | [] => 0
  | (_, value) :: rest => 1 + Any.size value + Any.sizeEntries rest
end

/-- A document whose entry `k` is an `M` node and whose entry `l` is an `L` node, both with
invalid scalars and malformed nodes inside. -/
def nestedDoc : GoMap :=
  [("k", Any.map [("M", Any.map [("bad", Any.map [("N", Any.string "x")]),
      ("", Any.map [("S", Any.string "a")]), ("good", Any.map [("S", Any.string "a")])])]),
    ("l", Any.map [("L", Any.slice [Any.map [("BOOL", Any.string "yes")], Any.string "raw",
      Any.map [("S", Any.string "b")]])])]

/-! ## RFC 3339 timestamps -/

/-- The fields of an RFC 3339 timestamp: the date, the time of day, the digits of the
fractional second (none when the text has no fraction) and the zone: `none` for the letter Z,
otherwise whether the offset is negative, its hours and its minutes. -/
structure Timestamp where
  year : Nat
  month : Nat
  day : Nat
  hour : Nat
  minute : Nat
  second : Nat
  fraction : List Nat
  zone : Option (Bool × Nat × Nat)

/-- The fields are in the ranges of RFC 3339, section 5.6: a year of four digits, a month of
the year, a day of that month, an hour below 24, a minute below 60, a second of at most 60 (the
value 60 is the leap second; in which months one occurs is not part of the grammar and is not
checked), decimal digits in the fraction, and an offset of hours below 24 and minutes below
60. -/
def Timestamp.rfc3339 (ts : Timestamp) : Prop :=
  ts.year < 10000 ∧ 1 ≤ ts.month ∧ ts.month ≤ 12 ∧ 1 ≤ ts.day ∧
    ts.day ≤ time.daysIn ts.month ts.year ∧ ts.hour < 24 ∧ ts.minute < 60 ∧ ts.second ≤ 60 ∧
    (∀ d ∈ ts.fraction, d < 10) ∧
    (∀ z, ts.zone = some z → z.2.1 < 24 ∧ z.2.2 < 60)

/-- The character of a decimal digit. -/
def digitChar (d : Nat) : Char := Char.ofNat ('0'.toNat + d)

/-- A number below 100 written with two digits. -/
def digits2 (n : Nat) : List Char := [digitChar (n / 10), digitChar (n % 10)]

/-- A number below 10000 written with four digits. -/
def digits4 (n : Nat) : List Char :=
  [digitChar (n / 1000), digitChar (n / 100 % 10), digitChar (n / 10 % 10), digitChar (n % 10)]

/-- The fraction of the second as written: nothing, or a period and the digits. -/
def Timestamp.fractionText (ts : Timestamp) : List Char :=
  match ts.fraction with
  | [] => []
  | d :: ds => '.' :: digitChar d :: ds.map digitChar

/-- The zone as written with the given letter for UTC: that letter, or the sign, the hours,
a colon and the minutes. -/
def Timestamp.zoneTextWith (ts : Timestamp) (z : Char) : List Char :=
  match ts.zone with
  | none => [z]
  | some (negative, hh, mm) =>
    (if negative then '-' else '+') :: (digits2 hh ++ ':' :: digits2 mm)

/-- The timestamp as written with the given letters between date and time and for UTC: date,
the letter, time, fraction and zone. -/
def Timestamp.textWith (ts : Timestamp) (t z : Char) : List Char :=
  digits4 ts.year ++ '-' :: (digits2 ts.month ++ '-' :: (digits2 ts.day ++ t ::
    (digits2 ts.hour ++ ':' :: (digits2 ts.minute ++ ':' :: (digits2 ts.second ++
      (ts.fractionText ++ ts.zoneTextWith z))))))

/-- The zone as written in upper case: the letter Z or the numeric offset. -/
def Timestamp.zoneText (ts : Timestamp) : List Char := ts.zoneTextWith 'Z'

/-- The timestamp as written in upper case, with the letters T and Z. -/
def Timestamp.text (ts : Timestamp) : List Char := ts.textWith 'T' 'Z'

/-- The text is a valid RFC 3339 timestamp: the written form of fields in range, where the
letter between date and time is T or t and the letter for UTC is Z or z (section 5.6 of the RFC
allows both cases). -/
def isRFC3339 (cs : List Char) : Prop :=
  ∃ (ts : Timestamp) (t z : Char), ts.rfc3339 ∧ (t = 'T' ∨ t = 't') ∧ (z = 'Z' ∨ z = 'z') ∧
    cs = ts.textWith t z

/-- The number of days of a year of the Gregorian calendar. -/
def civil.yearLength (year : Nat) : Nat := if time.isLeap year = true then 366 else 365

/-- The number of days from the first day of year 0 to the first day of the year. -/
def civil.daysBeforeYear : Nat → Nat
  | 0 => 0
  | year + 1 => civil.daysBeforeYear year + civil.yearLength year

/-- The number of days of the year that precede the first day of the month (1 = January). -/
def civil.daysBeforeMonth (year : Nat) : Nat → Nat
  | 0 => 0
  | month + 1 =>
    if month = 0 then 0 else civil.daysBeforeMonth year month + time.daysIn month year

/-- The offset of the zone east of UTC, in seconds. -/
def Timestamp.offset (ts : Timestamp) : Int :=
  match ts.zone with
  | none => 0
  | some (negative, hh, mm) =>
    if negative then -(((hh * 60 + mm) * 60 : Nat) : Int) else (((hh * 60 + mm) * 60 : Nat) : Int)

/-- The number of whole seconds from 1970-01-01T00:00:00Z to the instant that the timestamp
denotes: the days between the two dates counted year by year and month by month, the time of
day, and the offset taken off; the fraction is left out. -/
def Timestamp.unix (ts : Timestamp) : Int :=
  (((civil.daysBeforeYear ts.year + civil.daysBeforeMonth ts.year ts.month + (ts.day - 1) : Nat)
      : Int) - ((civil.daysBeforeYear 1970 : Nat) : Int)) * 86400
    + ((ts.hour * 3600 + ts.minute * 60 + ts.second : Nat) : Int) - ts.offset

/-! ## Numbers -/

/-- The integer that a run of decimal digits denotes. -/
def decimalValue (cs : List Char) : Nat :=
  cs.foldl (fun acc c => acc * 10 + time.digit c) 0

/-- The rational number that a finite binary64 value denotes. -/
def Float64.toRat : Float64 → Option ℚ
  | .finite negative mant exp => some ((if negative then -1 else 1) * (mant : ℚ) * (2 : ℚ) ^ exp)
  | _ => none

/-- A string value is not the text of a valid RFC 3339 timestamp. -/
def Any.notRFC3339 : Any → Prop
  | .string t => ¬ isRFC3339 t.data
  | _ => True

/-- A string value is not the text of a valid RFC 3339 timestamp that is written with the
upper-case letters T and Z and whose second is below 60 (no leap second). -/
def Any.notPlainTimestamp : Any → Prop
  | .string t => ∀ ts : Timestamp, ts.rfc3339 → ts.second < 60 → t.data ≠ ts.text
  | _ => True

/-! ## Values with the same contents, and inputs that follow the wire contract -/

mutual
/-- The two values are equal up to the order of the entries of the mappings inside them. -/
def Any.sameContents : Any → Any → Prop
  | .slice items, b => ∃ items2, b = .slice items2 ∧ Any.sameItems items items2
  | .map entries, b => ∃ entries2, b = .map entries2 ∧ Any.sameEntries entries entries2
  | .nil, b => b = .nil
  | .bool x, b => b = .bool x
  | .float64 x, b => b = .float64 x
  | .int64 n, b => b = .int64 n
  | .string s, b => b = .string s

/-- The two sequences have the same length and, position by position, elements with the
same contents. -/
def Any.sameItems : List Any → List Any → Prop
  | [], items2 => items2 = []
  | item :: rest, items2 =>
    ∃ item2 rest2, items2 = item2 :: rest2 ∧ Any.sameContents item item2 ∧
      Any.sameItems rest rest2

/-- The second list of entries is, in some order, the first one with each value replaced by a
value with the same contents. -/
def Any.sameEntries : List (String × Any) → List (String × Any) → Prop
  | [], entries2 => entries2 = []
  | (key, value) :: rest, entries2 =>
    ∃ value2 rest2, entries2.Perm ((key, value2) :: rest2) ∧ Any.sameContents value value2 ∧
      Any.sameEntries rest rest2
end

/-- Two results are both failures, or both values with the same contents. -/
def sameResult : Except GoError Any → Except GoError Any → Prop
  | .ok a, .ok b => Any.sameContents a b
  | .error _, .error _ => True
  | _, _ => False

mutual
/-- A value in the place of a tagged node follows the wire contract: when it is a mapping, it
has no repeated key, at most one of its entries decides, and its payloads follow the
contract. -/
def Any.wireNode : Any → Bool
  | .map node =>
    decide ((MapKeys node).Nodup) && decide ((node.filter entryDecides).length ≤ 1)
      && Any.wirePayloads node
  | _ => true

/-- The payload of every entry of a node follows the wire contract. -/
def Any.wirePayloads : List (String × Any) → Bool
  | [] => true
  | (_, payload) :: rest => Any.wirePayload payload && Any.wirePayloads rest

/-- A payload follows the wire contract: a sequence holds nodes that do, a mapping has no
repeated key and values that do. -/
def Any.wirePayload : Any → Bool
  | .slice items => Any.wireNodes items
  | .map doc => decide ((MapKeys doc).Nodup) && Any.wireValues doc
  | _ => true

/-- Every element of the sequence, taken as a node, follows the wire contract. -/
def Any.wireNodes : List Any → Bool
  | [] => true
  | item :: rest => Any.wireNode item && Any.wireNodes rest

/-- Every value of the entries, taken as a node, follows the wire contract. -/
def Any.wireValues : List (String × Any) → Bool
  | [] => true
  | (_, value) :: rest => Any.wireNode value && Any.wireValues rest
end

/-- A document follows the wire contract: no repeated key, and values that are nodes with at
most one deciding entry, at every depth. -/
def wireDoc (doc : GoMap) : Bool :=
  decide ((MapKeys doc).Nodup) && Any.wireValues doc

/-- A document with an `M` node and an `L` node. -/
def shuffleDoc : GoMap :=
  [("a", Any.map [("S", Any.string "x")]),
    ("m", Any.map [("M", Any.map [("p", Any.map [("N", Any.string "1")]),
      ("q", Any.map [("BOOL", Any.string "t")])])]),
    ("l", Any.map [("L", Any.slice [Any.map [("M", Any.map [("u", Any.map [("S", Any.string "y")]),
      ("v", Any.map [("NULL", Any.string "1")])])]])])]

/-- The document `shuffleDoc` with its entries, and those of the mappings inside it, in
another order. -/
def shuffleDoc2 : GoMap :=
  [("l", Any.map [("L", Any.slice [Any.map [("M", Any.map [("v", Any.map [("NULL", Any.string "1")]),
      ("u", Any.map [("S", Any.string "y")])])]])]),
    ("m", Any.map [("M", Any.map [("q", Any.map [("BOOL", Any.string "t")]),
      ("p", Any.map [("N", Any.string "1")])])]),
    ("a", Any.map [("S", Any.string "x")])]

/-! ## Lemmas on maps and loops -/

theorem mapAssign_of_not_mem (m : GoMap) (key : String) (v : Any) (h : key ∉ MapKeys m) :
    mapAssign m key v = m ++ [(key, v)] := by
  induction m with
  | nil => rfl
  | cons e rest ih =>
    obtain ⟨k, w⟩ := e
    simp only [MapKeys, List.map_cons, List.mem_cons, not_or] at h
    have hk : k ≠ key := fun hh => h.1 hh.symm
    simp only [mapAssign, hk, if_false, List.cons_append]
    rw [ih h.2]

theorem mapEntryResult_key (lib : GoLib) (e r : String × Any) (h : mapEntryResult lib e = some r) :
    r.1 = e.1 := by
  unfold mapEntryResult at h
  split at h
  · exact absurd h (by simp)
  · split at h
    · split at h
      · simp only [Option.some.injEq] at h
        rw [← h]
      · exact absurd h (by simp)
    · exact absurd h (by simp)

theorem mapKeys_filterMap_sublist (lib : GoLib) (doc : GoMap) :
    (MapKeys (doc.filterMap (mapEntryResult lib))).Sublist (MapKeys doc) := by
  induction doc with
  | nil => simp [MapKeys]
  | cons e rest ih =>
    simp only [MapKeys, List.filterMap_cons, List.map_cons] at ih ⊢
    cases hr : mapEntryResult lib e with
    | none => exact ih.cons _
    | some r =>
      simp only [List.map_cons]
      rw [mapEntryResult_key lib e r hr]
      exact ih.cons₂ _

theorem transformMapLoop_cons (lib : GoLib) (e : String × Any) (rest acc : GoMap) :
    transformMapLoop lib (e :: rest) acc =
      match mapEntryResult lib e with
      | some r => transformMapLoop lib rest (mapAssign acc r.1 r.2)
      | none => transformMapLoop lib rest acc := by
  obtain ⟨key, value⟩ := e
  by_cases hk : key = ""
  · cases value <;> simp [transformMapLoop, mapEntryResult, hk]
  · cases value with
    | map node =>
      cases hv : transformValue lib node <;> simp [transformMapLoop, mapEntryResult, hk, hv]
    | _ => simp [transformMapLoop, mapEntryResult, hk]

theorem transformMapLoop_eq_filterMap (lib : GoLib) (doc acc : GoMap)
    (h : (MapKeys acc ++ MapKeys doc).Nodup) :
    transformMapLoop lib doc acc = acc ++ doc.filterMap (mapEntryResult lib) := by
  induction doc generalizing acc with
  | nil => simp [transformMapLoop]
  | cons e rest ih =>
    rw [transformMapLoop_cons]
    have hnd : (MapKeys acc ++ e.1 :: MapKeys rest).Nodup := by simpa [MapKeys] using h
    have hparts := List.nodup_append.mp hnd
    have hrest : (MapKeys acc ++ MapKeys rest).Nodup :=
      List.nodup_append.mpr ⟨hparts.1, (List.nodup_cons.mp hparts.2.1).2,
        fun a ha hb => hparts.2.2 ha (List.mem_cons_of_mem _ hb)⟩
    cases hr : mapEntryResult lib e with
    | none =>
      simp only [List.filterMap_cons, hr]
      exact ih acc hrest
    | some r =>
      have hkey := mapEntryResult_key lib e r hr
      have hnot : r.1 ∉ MapKeys acc := by
        rw [hkey]
        intro hmem
        exact hparts.2.2 hmem (List.mem_cons_self _ _)
      simp only [List.filterMap_cons, hr]
      rw [mapAssign_of_not_mem acc r.1 r.2 hnot, ih]
      · simp
      · have : MapKeys (acc ++ [(r.1, r.2)]) = MapKeys acc ++ [e.1] := by simp [MapKeys, hkey]
        rw [this, List.append_assoc]
        simpa using hnd

theorem mem_filterMap_mapEntryResult (lib : GoLib) (doc : GoMap) (k : String) (v : Any) :
    (k, v) ∈ doc.filterMap (mapEntryResult lib) ↔
      k ≠ "" ∧ ∃ node, (k, Any.map node) ∈ doc ∧ transformValue lib node = .ok v := by
  rw [List.mem_filterMap]
  constructor
  · rintro ⟨⟨key, value⟩, hmem, hres⟩
    unfold mapEntryResult at hres
    by_cases hk : key = ""
    · simp [hk] at hres
    · cases value with
      | map node =>
        cases hv : transformValue lib node with
        | error err => simp [hk, hv] at hres
        | ok w =>
          simp only [hk, hv, if_false, Option.some.injEq, Prod.mk.injEq] at hres
          obtain ⟨h1, h2⟩ := hres
          subst h1 h2
          exact ⟨hk, node, hmem, hv⟩
      | _ => simp [hk] at hres
  · rintro ⟨hk, node, hmem, hv⟩
    exact ⟨(k, Any.map node), hmem, by simp [mapEntryResult, hk, hv]⟩

theorem transformListLoop_cons (lib : GoLib) (item : Any) (rest acc : List Any) :
    transformListLoop lib (item :: rest) acc =
      match listItemResult lib item with
      | some v => transformListLoop lib rest (acc ++ [v])
      | none => transformListLoop lib rest acc := by
  cases item with
  | map node =>
    cases hv : transformValue lib node with
    | error err => simp [transformListLoop, listItemResult, hv]
    | ok w => cases w <;> simp [transformListLoop, listItemResult, hv]
  | _ => simp [transformListLoop, listItemResult]

theorem transformListLoop_eq_filterMap (lib : GoLib) (items acc : List Any) :
    transformListLoop lib items acc = acc ++ items.filterMap (listItemResult lib) := by
  induction items generalizing acc with
  | nil => simp [transformListLoop]
  | cons item rest ih =>
    rw [transformListLoop_cons]
    cases hr : listItemResult lib item with
    | none => simp only [List.filterMap_cons, hr]; exact ih acc
    | some v => simp only [List.filterMap_cons, hr]; rw [ih]; simp

/-- The case `"M"` of `transformValue` returns what `transformMap` returns on the payload. -/
theorem transformValue_M (lib : GoLib) (v rest : GoMap) :
    transformValue lib (("M", Any.map v) :: rest) =
      match transformMap lib v with
      | .ok out => .ok (.map out)
      | .error err => .error err := by
  simp [transformValue, transformMap]

theorem transformValue_cons (lib : GoLib) (e : String × Any) (rest : GoMap) :
    transformValue lib (e :: rest) =
      if entryDecides e = true then applyRule lib e else transformValue lib rest := by
  obtain ⟨dataType, val⟩ := e
  by_cases hS : dataType = "S"
  · subst hS
    cases val <;> simp [transformValue, entryDecides, applyRule]
  by_cases hN : dataType = "N"
  · subst hN
    cases val <;> simp [transformValue, entryDecides, applyRule]
  by_cases hB : dataType = "BOOL"
  · subst hB
    cases val <;> simp [transformValue, entryDecides, applyRule]
  by_cases hU : dataType = "NULL"
  · subst hU
    cases val <;> simp [transformValue, entryDecides, applyRule]
  by_cases hL : dataType = "L"
  · subst hL
    cases val <;> simp [transformValue, entryDecides, applyRule]
  by_cases hM : dataType = "M"
  · subst hM
    cases val <;> simp [transformValue, entryDecides, applyRule, transformMap]
  · cases val <;> simp [transformValue, entryDecides, applyRule, hS, hN, hB, hU, hL, hM]

theorem transformValue_eq_find (lib : GoLib) (node : GoMap) :
    transformValue lib node =
      match node.find? entryDecides with
      | some e => applyRule lib e
      | none => .ok .nil := by
  induction node with
  | nil => simp [transformValue]
  | cons e rest ih =>
    rw [transformValue_cons, List.find?_cons]
    cases hd : entryDecides e with
    | true => simp
    | false => simpa using ih

/-! ## Lemmas on the empty-key invariant -/

theorem noEmptyKeyEntries_mapAssign (m : GoMap) (key : String) (v : Any)
    (hm : Any.noEmptyKeyEntries m = true) (hk : key ≠ "") (hv : v.noEmptyKey = true) :
    Any.noEmptyKeyEntries (mapAssign m key v) = true := by
  induction m with
  | nil => simp [mapAssign, Any.noEmptyKeyEntries, hk, hv]
  | cons e rest ih =>
    obtain ⟨k, w⟩ := e
    simp only [Any.noEmptyKeyEntries, Bool.and_eq_true] at hm
    by_cases hkk : k = key
    · simp only [mapAssign, hkk, if_true, Any.noEmptyKeyEntries, Bool.and_eq_true]
      exact ⟨⟨by simpa using hk, hv⟩, hm.2⟩
    · simp only [mapAssign, hkk, if_false, Any.noEmptyKeyEntries, Bool.and_eq_true]
      exact ⟨hm.1, ih hm.2⟩

theorem noEmptyKeyItems_concat (items : List Any) (v : Any)
    (hi : Any.noEmptyKeyItems items = true) (hv : v.noEmptyKey = true) :
    Any.noEmptyKeyItems (items ++ [v]) = true := by
  induction items with
  | nil => simp [Any.noEmptyKeyItems, hv]
  | cons x rest ih =>
    simp only [Any.noEmptyKeyItems, Bool.and_eq_true, List.cons_append] at hi ⊢
    exact ⟨hi.1, ih hi.2⟩

theorem transformString_noEmptyKey (lib : GoLib) (s : String) (v : Any)
    (h : transformString lib s = .ok v) : v.noEmptyKey = true := by
  unfold transformString at h
  simp only [] at h
  split at h
  · exact absurd h (by simp)
  · split at h <;> (injection h with h; subst h; rfl)

theorem transformNumber_noEmptyKey (lib : GoLib) (s : String) (v : Any)
    (h : transformNumber lib s = .ok v) : v.noEmptyKey = true := by
  unfold transformNumber at h
  simp only [] at h
  split at h
  · injection h with h; subst h; rfl
  · exact absurd h (by simp)

theorem transformBool_noEmptyKey (lib : GoLib) (s : String) (v : Any)
    (h : transformBool lib s = .ok v) : v.noEmptyKey = true := by
  unfold transformBool at h
  simp only [] at h
  split at h
  · injection h with h; subst h; rfl
  · split at h
    · injection h with h; subst h; rfl
    · exact absurd h (by simp)

theorem transformNull_noEmptyKey (lib : GoLib) (s : String) (v : Any)
    (h : transformNull lib s = .ok v) : v.noEmptyKey = true := by
  unfold transformNull at h
  simp only [] at h
  split at h
  · injection h with h; subst h; rfl
  · exact absurd h (by simp)

mutual
theorem transformMapLoop_noEmptyKey (lib : GoLib) :
    ∀ (doc acc : GoMap), Any.noEmptyKeyEntries acc = true →
      Any.noEmptyKeyEntries (transformMapLoop lib doc acc) = true
  | [], acc, h => by simpa [transformMapLoop] using h
  | (key, value) :: rest, acc, h => by
    rw [transformMapLoop_cons]
    cases hr : mapEntryResult lib (key, value) with
    | none => exact transformMapLoop_noEmptyKey lib rest acc h
    | some r =>
      simp only []
      apply transformMapLoop_noEmptyKey lib rest
      unfold mapEntryResult at hr
      by_cases hk : key = ""
      · simp [hk] at hr
      · cases value with
        | map node =>
          cases hv : transformValue lib node with
          | error err => simp [hk, hv] at hr
          | ok w =>
            simp only [hk, hv, if_false, Option.some.injEq] at hr
            subst hr
            exact noEmptyKeyEntries_mapAssign acc key w h hk
              (transformValue_noEmptyKey lib node w hv)
        | _ => simp [hk] at hr

theorem transformValue_noEmptyKey (lib : GoLib) :
    ∀ (node : GoMap) (v : Any), transformValue lib node = .ok v → v.noEmptyKey = true
  | [], v, h => by
    simp only [transformValue] at h
    injection h with h; subst h; rfl
  | (dataType, val) :: rest, v, h => by
    rw [transformValue_cons] at h
    by_cases hd : entryDecides (dataType, val) = true
    · simp only [hd, if_true] at h
      unfold applyRule at h
      cases val with
      | string s =>
        simp only [] at h
        split at h
        · exact transformString_noEmptyKey lib s v h
        · split at h
          · exact transformNumber_noEmptyKey lib s v h
          · split at h
            · exact transformBool_noEmptyKey lib s v h
            · split at h
              · exact transformNull_noEmptyKey lib s v h
              · split at h
                · exact transformList_noEmptyKey lib _ v h
                · injection h with h; subst h; rfl
      | map m =>
        simp only [transformMap] at h
        split at h
        · injection h with h; subst h
          simp only [Any.noEmptyKey]
          exact transformMapLoop_noEmptyKey lib m [] rfl
        · split at h
          · exact transformList_noEmptyKey lib _ v h
          · injection h with h; subst h; rfl
      | _ =>
        simp only [] at h
        split at h
        · exact transformList_noEmptyKey lib _ v h
        · injection h with h; subst h; rfl
    · simp only [hd] at h
      exact transformValue_noEmptyKey lib rest v h

theorem transformList_noEmptyKey (lib : GoLib) :
    ∀ (val v : Any), transformList lib val = .ok v → v.noEmptyKey = true
  | .slice items, v, h => by
    simp only [transformList] at h
    injection h with h; subst h
    simp only [Any.noEmptyKey]
    exact transformListLoop_noEmptyKey lib items [] rfl
  | .nil, v, h => by simp [transformList] at h
  | .bool _, v, h => by simp [transformList] at h
  | .float64 _, v, h => by simp [transformList] at h
  | .int64 _, v, h => by simp [transformList] at h
  | .string _, v, h => by simp [transformList] at h
  | .map _, v, h => by simp [transformList] at h

theorem transformListLoop_noEmptyKey (lib : GoLib) :
    ∀ (items acc : List Any), Any.noEmptyKeyItems acc = true →
      Any.noEmptyKeyItems (transformListLoop lib items acc) = true
  | [], acc, h => by simpa [transformListLoop] using h
  | item :: rest, acc, h => by
    rw [transformListLoop_cons]
    cases hr : listItemResult lib item with
    | none => exact transformListLoop_noEmptyKey lib rest acc h
    | some w =>
      simp only []
      apply transformListLoop_noEmptyKey lib rest
      apply noEmptyKeyItems_concat acc w h
      unfold listItemResult at hr
      cases item with
      | map node =>
        cases hv : transformValue lib node with
        | error err => simp [hv] at hr
        | ok u =>
          have hu := transformValue_noEmptyKey lib node u hv
          cases u <;> simp [hv] at hr <;> (subst hr; exact hu)
      | _ => simp at hr
end

/-! ## Lemmas on strings -/

theorem char_toNat_ofNat (n : Nat) (h : n < 0xD800) : (Char.ofNat n).toNat = n := by
  have hv : n.isValidChar := Or.inl h
  simp only [Char.ofNat, hv, dite_true, Char.ofNatAux, Char.toNat]
  rfl

theorem isAsciiUpper_ToLower (lib : GoLib)
    (hlib : ∀ r : Char, 0x7F < r.toNat → isAsciiUpper (lib.caseTable r) = false)
    (r : Char) : isAsciiUpper (unicode.ToLower lib r) = false := by
  unfold unicode.ToLower
  split
  · split
    · rename_i h1 h2
      have h3 : ('A'.toNat : Nat) = 65 := rfl
      have h4 : ('Z'.toNat : Nat) = 90 := rfl
      have h5 : ('a'.toNat : Nat) = 97 := rfl
      rw [h3, h4] at h2
      simp only [isAsciiUpper, h3, h4, h5, decide_eq_false_iff_not]
      rw [char_toNat_ofNat _ (by omega)]
      omega
    · rename_i h1 h2
      simpa [isAsciiUpper] using h2
  · rename_i h1
    exact hlib r (by omega)

theorem isAsciiUpper_caseTable (r : Char) (hr : 0x7F < r.toNat) :
    isAsciiUpper (unicode.caseTable r) = false := by
  have h3 : ('A'.toNat : Nat) = 65 := rfl
  have h4 : ('Z'.toNat : Nat) = 90 := rfl
  unfold unicode.caseTable
  simp only []
  split
  · rename_i h
    simp only [isAsciiUpper, h3, h4, decide_eq_false_iff_not]
    rw [char_toNat_ofNat _ (by omega)]
    omega
  · split
    · rename_i h
      simp only [isAsciiUpper, h3, h4, decide_eq_false_iff_not]
      rw [char_toNat_ofNat _ (by omega)]
      omega
    · split
      · decide
      · split
        · decide
        · split
          · decide
          · split
            · decide
            · simp only [isAsciiUpper, h3, h4, decide_eq_false_iff_not]
              omega

theorem isAsciiUpper_of_mem_trimmed_lower (lib : GoLib)
    (hlib : ∀ r : Char, 0x7F < r.toNat → isAsciiUpper (lib.caseTable r) = false)
    (s : String) (c : Char) (hc : c ∈ (strings.TrimSpace (strings.ToLower lib s)).data) :
    isAsciiUpper c = false := by
  simp only [strings.TrimSpace, strings.ToLower] at hc
  have h1 := (List.rdropWhile_prefix unicode.IsSpace _).subset hc
  have h2 := (List.dropWhile_suffix unicode.IsSpace).subset h1
  obtain ⟨r, _, hr⟩ := List.mem_map.mp h2
  rw [← hr]
  exact isAsciiUpper_ToLower lib hlib r

theorem slices_Contains_iff (xs : List String) (s : String) :
    slices.Contains xs s = true ↔ s ∈ xs := by
  simp only [slices.Contains, List.any_eq_true, decide_eq_true_eq]
  constructor
  · rintro ⟨x, hx, rfl⟩
    exact hx
  · intro h
    exact ⟨s, h, rfl⟩

theorem trimmed_lower_not_capital (lib : GoLib)
    (hlib : ∀ r : Char, 0x7F < r.toNat → isAsciiUpper (lib.caseTable r) = false)
    (s : String) (w : String) (c : Char) (hc : c ∈ w.data) (hup : isAsciiUpper c = true) :
    strings.TrimSpace (strings.ToLower lib s) ≠ w := by
  intro h
  have := isAsciiUpper_of_mem_trimmed_lower lib hlib s c (by rw [h]; exact hc)
  rw [this] at hup
  exact Bool.noConfusion hup

theorem contains_truthy_iff (lib : GoLib)
    (hlib : ∀ r : Char, 0x7F < r.toNat → isAsciiUpper (lib.caseTable r) = false) (s : String) :
    slices.Contains truthyBooleanValues (strings.TrimSpace (strings.ToLower lib s)) = true ↔
      strings.TrimSpace (strings.ToLower lib s) ∈ ["1", "t", "true"] := by
  rw [slices_Contains_iff]
  have h1 := trimmed_lower_not_capital lib hlib s "T" 'T' (by decide) (by decide)
  have h2 := trimmed_lower_not_capital lib hlib s "TRUE" 'T' (by decide) (by decide)
  have h3 := trimmed_lower_not_capital lib hlib s "True" 'T' (by decide) (by decide)
  simp only [truthyBooleanValues, List.mem_cons, List.mem_singleton, List.not_mem_nil, or_false,
    h1, h2, h3, false_or]

theorem contains_falsy_iff (lib : GoLib)
    (hlib : ∀ r : Char, 0x7F < r.toNat → isAsciiUpper (lib.caseTable r) = false) (s : String) :
    slices.Contains falsyBooleanValues (strings.TrimSpace (strings.ToLower lib s)) = true ↔
      strings.TrimSpace (strings.ToLower lib s) ∈ ["0", "f", "false"] := by
  rw [slices_Contains_iff]
  have h1 := trimmed_lower_not_capital lib hlib s "F" 'F' (by decide) (by decide)
  have h2 := trimmed_lower_not_capital lib hlib s "FALSE" 'F' (by decide) (by decide)
  have h3 := trimmed_lower_not_capital lib hlib s "False" 'F' (by decide) (by decide)
  simp only [falsyBooleanValues, List.mem_cons, List.mem_singleton, List.not_mem_nil, or_false,
    h1, h2, h3, false_or]

theorem string_eq_empty_iff (s : String) : s = "" ↔ s.data = [] := by
  constructor
  · intro h; rw [h]
  · intro h; exact String.ext h

theorem TrimSpace_eq_empty_iff (s : String) :
    strings.TrimSpace s = "" ↔ allSpace s.data = true := by
  rw [string_eq_empty_iff]
  simp only [strings.TrimSpace, allSpace, List.rdropWhile_eq_nil_iff, List.all_eq_true]
  constructor
  · intro h
    have hnil : List.dropWhile unicode.IsSpace s.data = [] := by
      by_contra hne
      have hhead := List.head_dropWhile_not unicode.IsSpace s.data hne
      have := h _ (List.head_mem hne)
      rw [this] at hhead
      exact Bool.noConfusion hhead
    exact List.dropWhile_eq_nil_iff.mp hnil
  · intro h x hx
    exact h x ((List.dropWhile_suffix unicode.IsSpace).subset hx)

theorem TrimSpace_decompose (s : String) :
    ∃ pre post : List Char, s.data = pre ++ (strings.TrimSpace s).data ++ post ∧
      allSpace pre = true ∧ allSpace post = true := by
  refine ⟨s.data.takeWhile unicode.IsSpace,
    (s.data.dropWhile unicode.IsSpace).rtakeWhile unicode.IsSpace, ?_, ?_, ?_⟩
  · have h : (s.data.dropWhile unicode.IsSpace).rdropWhile unicode.IsSpace
        ++ (s.data.dropWhile unicode.IsSpace).rtakeWhile unicode.IsSpace
        = s.data.dropWhile unicode.IsSpace := by
      simp only [List.rdropWhile, List.rtakeWhile, ← List.reverse_append,
        List.takeWhile_append_dropWhile, List.reverse_reverse]
    simp only [strings.TrimSpace, List.append_assoc]
    rw [h, List.takeWhile_append_dropWhile]
  · simp only [allSpace, List.all_eq_true]
    intro c hc
    exact List.mem_takeWhile_imp hc
  · simp only [allSpace, List.all_eq_true]
    intro c hc
    exact List.mem_rtakeWhile_imp hc

theorem TrimSpace_head_not_space (s : String) (c : Char)
    (h : (strings.TrimSpace s).data.head? = some c) : unicode.IsSpace c = false := by
  simp only [strings.TrimSpace] at h
  obtain ⟨r, hr⟩ := List.rdropWhile_prefix unicode.IsSpace
    (s.data.dropWhile unicode.IsSpace)
  have hhead := List.head?_dropWhile_not unicode.IsSpace s.data
  rw [← hr, List.head?_append, h] at hhead
  simpa using hhead

theorem TrimSpace_last_not_space (s : String) (c : Char)
    (h : (strings.TrimSpace s).data.getLast? = some c) : unicode.IsSpace c = false := by
  simp only [strings.TrimSpace] at h
  have hne : (s.data.dropWhile unicode.IsSpace).rdropWhile unicode.IsSpace ≠ [] := by
    intro hnil
    rw [hnil] at h
    exact absurd h (by simp)
  have hlast := List.rdropWhile_last_not unicode.IsSpace _ hne
  rw [List.getLast?_eq_getLast _ hne] at h
  injection h with h
  rw [h] at hlast
  simpa using hlast

theorem mapValue_unique (doc : GoMap) (k : String) (a b : Any) (hdoc : (MapKeys doc).Nodup)
    (ha : (k, a) ∈ doc) (hb : (k, b) ∈ doc) : a = b := by
  induction doc with
  | nil => exact absurd ha (List.not_mem_nil _)
  | cons e rest ih =>
    simp only [MapKeys, List.map_cons, List.nodup_cons] at hdoc
    have hkey : ∀ x : Any, (k, x) ∈ rest → k ∈ List.map Prod.fst rest :=
      fun x hx => List.mem_map.mpr ⟨(k, x), hx, rfl⟩
    rcases List.mem_cons.mp ha with ha | ha <;> rcases List.mem_cons.mp hb with hb | hb
    · rw [← hb] at ha
      exact (Prod.mk.inj ha).2
    · rw [← ha] at hdoc
      exact absurd (hkey b hb) hdoc.1
    · rw [← hb] at hdoc
      exact absurd (hkey a ha) hdoc.1
    · exact ih hdoc.2 ha hb

/-! ## The properties -/

/-- C1: on a map without repeated key, `transformMap` returns exactly the mapping that holds
key `k` with value `v` if and only if `k` is a non-empty key of the input, the value of `k` is
itself a mapping, and `transformValue` succeeds on it with result `v` (which may be null); the
output has no repeated key, and each of its keys is a key of the input. -/
theorem transformMap_exact (lib : GoLib) (doc : GoMap) (hdoc : (MapKeys doc).Nodup) :
    ∃ out, transformMap lib doc = .ok out ∧ (MapKeys out).Nodup ∧
      (∀ k v, (k, v) ∈ out ↔
        k ≠ "" ∧ ∃ node, (k, Any.map node) ∈ doc ∧ transformValue lib node = .ok v) ∧
      (∀ k, k ∈ MapKeys out → k ∈ MapKeys doc) := by
  have hloop : transformMapLoop lib doc [] = doc.filterMap (mapEntryResult lib) := by
    rw [transformMapLoop_eq_filterMap lib doc [] (by simpa [MapKeys] using hdoc)]
    simp
  refine ⟨doc.filterMap (mapEntryResult lib), ?_, ?_, ?_, ?_⟩
  · simp [transformMap, hloop]
  · exact (mapKeys_filterMap_sublist lib doc).nodup hdoc
  · exact mem_filterMap_mapEntryResult lib doc
  · intro k hk
    exact (mapKeys_filterMap_sublist lib doc).subset hk

/-- Witness of C1: the theorem on `exampleDoc`. -/
theorem transformMap_exact_witness :
    (MapKeys exampleDoc).Nodup ∧
    ∃ out, transformMap goLib exampleDoc = .ok out ∧ (MapKeys out).Nodup ∧
      (∀ k v, (k, v) ∈ out ↔
        k ≠ "" ∧ ∃ node, (k, Any.map node) ∈ exampleDoc ∧ transformValue goLib node = .ok v) ∧
      (∀ k, k ∈ MapKeys out → k ∈ MapKeys exampleDoc) :=
  ⟨by decide, transformMap_exact goLib exampleDoc (by decide)⟩

/-- Counterexample to C2 as stated: on the node whose entries are `L` with a payload that is
not a sequence, then `S` with payload "hi", the code fails with `InvalidValueError`, where the
rule of the first qualifying entry gives the string "hi". -/
theorem transformValue_malformed_L_then_S :
    transformValue goLib [("L", Any.string "x"), ("S", Any.string "hi")]
        = .error GoError.InvalidValueError ∧
      specTransformValue goLib [("L", Any.string "x"), ("S", Any.string "hi")]
        = .ok (Any.string "hi") ∧
      transformValue goLib [("L", Any.string "x"), ("S", Any.string "hi")]
        ≠ specTransformValue goLib [("L", Any.string "x"), ("S", Any.string "hi")] := by
  refine ⟨rfl, rfl, ?_⟩
  intro h
  have h1 : transformValue goLib [("L", Any.string "x"), ("S", Any.string "hi")]
      = .error GoError.InvalidValueError := rfl
  have h2 : specTransformValue goLib [("L", Any.string "x"), ("S", Any.string "hi")]
      = .ok (Any.string "hi") := rfl
  rw [h1, h2] at h
  exact Except.noConfusion h

/-- C2, amended: `transformValue` returns the result of the rule selected by the first entry
that is `S`, `N`, `BOOL` or `NULL` with a string payload, `M` with a mapping payload, or `L`
with any payload; the other entries are skipped, and when there is no such entry the result is
`(nil, no error)`.  An `L` entry whose payload is not a sequence is not skipped: its rule
fails with `InvalidValueError`. -/
theorem transformValue_first_deciding_entry (lib : GoLib) (node : GoMap) :
    transformValue lib node =
        (match node.find? entryDecides with
          | some e => applyRule lib e
          | none => .ok .nil) ∧
      (∀ e : String × Any, entryDecides e = true ↔ (specQualifies e = true ∨ e.1 = "L")) ∧
      (∀ s : String, applyRule lib ("S", Any.string s) = transformString lib s ∧
        applyRule lib ("N", Any.string s) = transformNumber lib s ∧
        applyRule lib ("BOOL", Any.string s) = transformBool lib s ∧
        applyRule lib ("NULL", Any.string s) = transformNull lib s) ∧
      (∀ m : GoMap, ∃ out, transformMap lib m = .ok out ∧
        applyRule lib ("M", Any.map m) = .ok (Any.map out)) ∧
      (∀ p : Any, applyRule lib ("L", p) = transformList lib p) ∧
      (∀ p : Any, (∃ xs, p = Any.slice xs) ∨
        applyRule lib ("L", p) = .error GoError.InvalidValueError) := by
  refine ⟨transformValue_eq_find lib node, ?_, ?_, ?_, ?_, ?_⟩
  · rintro ⟨key, p⟩
    by_cases hL : key = "L"
    · subst hL
      simp [entryDecides, specQualifies]
    · cases p <;> simp [entryDecides, specQualifies, hL]
  · intro s
    simp [applyRule]
  · intro m
    exact ⟨transformMapLoop lib m [], rfl, by simp [applyRule, transformMap]⟩
  · intro p
    cases p <;> simp [applyRule]
  · intro p
    cases p with
    | slice xs => exact Or.inl ⟨xs, rfl⟩
    | _ => right; simp [applyRule, transformList]

/-- Counterexample to C3 as stated: the inert nodes `{}`, `{"X": "foo"}` and `{"S": 5}` under
key `k` are not dropped by `transformMap`; each is emitted as `k` mapped to null. -/
theorem transformMap_inert_node_kept :
    transformMap goLib [("k", Any.map [])] = .ok [("k", Any.nil)] ∧
      transformMap goLib [("k", Any.map [("X", Any.string "foo")])] = .ok [("k", Any.nil)] ∧
      transformMap goLib [("k", Any.map [("S", Any.float64 (.finite false (5 * 2 ^ 50) (-50)))])]
        = .ok [("k", Any.nil)] :=
  ⟨rfl, rfl, rfl⟩

/-- C3, amended: in a document without repeated key, a non-empty key `k` whose value is a
mapping in which no entry is `S`, `N`, `BOOL` or `NULL` with a string payload, `M` with a
mapping payload, or `L`, is present in the output of `transformMap`, mapped to null. -/
theorem transformMap_inert_node_null (lib : GoLib) (doc : GoMap) (k : String) (node : GoMap)
    (hdoc : (MapKeys doc).Nodup) (hk : k ≠ "") (hmem : (k, Any.map node) ∈ doc)
    (hinert : node.find? entryDecides = none) :
    ∃ out, transformMap lib doc = .ok out ∧ (k, Any.nil) ∈ out ∧
      ∀ v, (k, v) ∈ out → v = Any.nil := by
  have hloop : transformMapLoop lib doc [] = doc.filterMap (mapEntryResult lib) := by
    rw [transformMapLoop_eq_filterMap lib doc [] (by simpa [MapKeys] using hdoc)]
    simp
  have hval : transformValue lib node = .ok Any.nil := by
    rw [transformValue_eq_find, hinert]
  refine ⟨doc.filterMap (mapEntryResult lib), by simp [transformMap, hloop], ?_, ?_⟩
  · exact (mem_filterMap_mapEntryResult lib doc k Any.nil).mpr ⟨hk, node, hmem, hval⟩
  · intro v hv
    obtain ⟨_, node2, hmem2, hval2⟩ := (mem_filterMap_mapEntryResult lib doc k v).mp hv
    have heq : Any.map node2 = Any.map node :=
      mapValue_unique doc k (Any.map node2) (Any.map node) hdoc hmem2 hmem
    injection heq with heq
    rw [heq, hval] at hval2
    injection hval2 with hval2
    exact hval2.symm

/-- Witness of C3 as amended: the node `inertNode` under key `k` of `inertDoc`. -/
theorem transformMap_inert_node_null_witness :
    (MapKeys inertDoc).Nodup ∧ "k" ≠ "" ∧ ("k", Any.map inertNode) ∈ inertDoc ∧
      inertNode.find? entryDecides = none ∧
      ∃ out, transformMap goLib inertDoc = .ok out ∧ ("k", Any.nil) ∈ out ∧
        ∀ v, ("k", v) ∈ out → v = Any.nil :=
  ⟨by decide, by decide, List.mem_cons_of_mem _ (List.mem_cons_self _ _), rfl,
    transformMap_inert_node_null goLib inertDoc "k" inertNode (by decide) (by decide)
      (List.mem_cons_of_mem _ (List.mem_cons_self _ _)) rfl⟩

/-- C4: on a sequence, `transformList` succeeds and returns a sequence (not null) made of the
elements of the input in their order, keeping only those that are mappings, on which
`transformValue` succeeds, and whose result is not null, each replaced by that result; the list
`[{"S":"a"},{"N":"x"},{"NULL":"true"}]` yields `["a"]`. -/
theorem transformList_keeps_successes_in_order :
    (∀ (lib : GoLib) (xs : List Any),
      transformList lib (Any.slice xs) = .ok (Any.slice (xs.filterMap (listItemResult lib)))) ∧
    (∀ (lib : GoLib) (item v : Any), listItemResult lib item = some v ↔
      ∃ node, item = Any.map node ∧ transformValue lib node = .ok v ∧ v ≠ Any.nil) ∧
    transformList goLib (Any.slice [Any.map [("S", Any.string "a")],
        Any.map [("N", Any.string "x")], Any.map [("NULL", Any.string "true")]])
      = .ok (Any.slice [Any.string "a"]) := by
  refine ⟨?_, ?_, rfl⟩
  · intro lib xs
    simp [transformList, transformListLoop_eq_filterMap]
  · intro lib item v
    constructor
    · intro h
      cases item with
      | map node =>
        cases hv : transformValue lib node with
        | error err => simp [listItemResult, hv] at h
        | ok w =>
          cases w <;> simp [listItemResult, hv] at h <;> (subst h; exact ⟨node, rfl, hv, by simp⟩)
      | _ => simp [listItemResult] at h
    · rintro ⟨node, rfl, hv, hne⟩
      cases v <;> simp [listItemResult, hv] at hne ⊢

/-- Counterexample to C5 as stated: with the payload "x", which is not a sequence, the output
of `transformMap` on `{"k": {"L": "x"}}` is the empty mapping; `k` is not mapped to the empty
sequence. -/
theorem transformMap_malformed_L_dropped :
    transformMap goLib [("k", Any.map [("L", Any.string "x")])] = .ok [] ∧
      transformMap goLib [("k", Any.map [("L", Any.string "x")])]
        ≠ .ok [("k", Any.slice [])] := by
  refine ⟨rfl, ?_⟩
  intro h
  have h1 : transformMap goLib [("k", Any.map [("L", Any.string "x")])] = .ok [] := rfl
  rw [h1] at h
  injection h with h
  exact List.noConfusion h

/-- C5, amended: a malformed list payload makes the node fail: for every payload `p` that is
not a sequence, `transformList` returns `InvalidValueError` on `p`, so does `transformValue` on
the node `{"L": p}`, and `transformMap` on `{"k": {"L": p}}` yields the empty mapping, in which
`k` is absent. -/
theorem transformMap_malformed_L_absent (lib : GoLib) (k : String) (p : Any)
    (hp : ∀ xs, p ≠ Any.slice xs) :
    transformList lib p = .error GoError.InvalidValueError ∧
      transformValue lib [("L", p)] = .error GoError.InvalidValueError ∧
      transformMap lib [(k, Any.map [("L", p)])] = .ok [] := by
  have h1 : transformList lib p = .error GoError.InvalidValueError := by
    cases p with
    | slice xs => exact absurd rfl (hp xs)
    | _ => rfl
  have h2 : transformValue lib [("L", p)] = .error GoError.InvalidValueError := by
    simp [transformValue, h1]
  refine ⟨h1, h2, ?_⟩
  by_cases hk : k = ""
  · simp [transformMap, transformMapLoop, hk]
  · simp [transformMap, transformMapLoop, hk, h2]

/-- Witness of C5 as amended: the payload "x" under the discriminator `L`. -/
theorem transformMap_malformed_L_absent_witness :
    (∀ xs, Any.string "x" ≠ Any.slice xs) ∧
      transformList goLib (Any.string "x") = .error GoError.InvalidValueError ∧
      transformValue goLib [("L", Any.string "x")] = .error GoError.InvalidValueError ∧
      transformMap goLib [("k", Any.map [("L", Any.string "x")])] = .ok [] :=
  ⟨fun _ h => Any.noConfusion h,
    transformMap_malformed_L_absent goLib "k" (Any.string "x") (fun _ h => Any.noConfusion h)⟩

/-- C6: no mapping anywhere in the output of `transformMap` (the top-level mapping, a mapping
produced from a nested `M` node, a mapping inside a list at any depth) has the empty string as
a key. -/
theorem transformMap_no_empty_key (lib : GoLib) (doc : GoMap) :
    ∃ out, transformMap lib doc = .ok out ∧ (Any.map out).noEmptyKey = true ∧
      "" ∉ MapKeys out := by
  refine ⟨transformMapLoop lib doc [], rfl, ?_, ?_⟩
  · simp only [Any.noEmptyKey]
    exact transformMapLoop_noEmptyKey lib doc [] rfl
  · have h := transformMapLoop_noEmptyKey lib doc [] rfl
    generalize transformMapLoop lib doc [] = out at h
    induction out with
    | nil => simp [MapKeys]
    | cons e rest ih =>
      obtain ⟨key, value⟩ := e
      simp only [Any.noEmptyKeyEntries, Bool.and_eq_true, bne_iff_ne, ne_eq] at h
      simp only [MapKeys, List.map_cons, List.mem_cons, not_or]
      exact ⟨fun hh => h.1.1 hh.symm, ih h.2⟩

/-- The predicate of C6 does reject a deeply nested empty key; the document holding such keys
at three levels is transformed into one without them. -/
theorem noEmptyKey_sanity :
    (Any.map [("a", Any.slice [Any.map [("", Any.nil)]])]).noEmptyKey = false ∧
      transformMap goLib
          [("", Any.map [("S", Any.string "x")]),
            ("m", Any.map [("M", Any.map [("", Any.map [("S", Any.string "y")]),
              ("l", Any.map [("L", Any.slice [Any.map [("M", Any.map
                [("", Any.map [("S", Any.string "z")]), ("b", Any.map [("S", Any.string "w")])])]])])])])]
        = .ok [("m", Any.map [("l", Any.slice [Any.map [("b", Any.string "w")]])])] :=
  ⟨rfl, rfl⟩

/-- C7: when the case table never yields an ASCII capital, `transformBool` returns true
exactly when the lower-cased, trimmed text is "1", "t" or "true", returns false exactly when
it is "0", "f" or "false", and fails with `InvalidValueError` exactly when it is none of the
six; "TRUE" gives true, "False" gives false and "yes" fails. -/
theorem transformBool_spec (lib : GoLib)
    (hlib : ∀ r : Char, 0x7F < r.toNat → isAsciiUpper (lib.caseTable r) = false) (s : String) :
    (transformBool lib s = .ok (Any.bool true) ↔
        strings.TrimSpace (strings.ToLower lib s) ∈ ["1", "t", "true"]) ∧
      (transformBool lib s = .ok (Any.bool false) ↔
        strings.TrimSpace (strings.ToLower lib s) ∈ ["0", "f", "false"]) ∧
      (transformBool lib s = .error GoError.InvalidValueError ↔
        strings.TrimSpace (strings.ToLower lib s) ∉ ["1", "t", "true", "0", "f", "false"]) ∧
      transformBool lib "TRUE" = .ok (Any.bool true) ∧
      transformBool lib "False" = .ok (Any.bool false) ∧
      transformBool lib "yes" = .error GoError.InvalidValueError := by
  have ht := contains_truthy_iff lib hlib s
  have hf := contains_falsy_iff lib hlib s
  have hdisj : strings.TrimSpace (strings.ToLower lib s) ∈ ["1", "t", "true"] →
      strings.TrimSpace (strings.ToLower lib s) ∉ ["0", "f", "false"] := by
    intro h1 h2
    simp only [List.mem_cons, List.mem_singleton, List.not_mem_nil, or_false] at h1 h2
    rcases h1 with h1 | h1 | h1 <;> rw [h1] at h2 <;> revert h2 <;> decide
  have hdisj2 : slices.Contains truthyBooleanValues (strings.TrimSpace (strings.ToLower lib s))
      = true → slices.Contains falsyBooleanValues (strings.TrimSpace (strings.ToLower lib s))
      = false := by
    intro h1
    cases h2 : slices.Contains falsyBooleanValues (strings.TrimSpace (strings.ToLower lib s))
    · rfl
    · exact absurd (hf.mp h2) (hdisj (ht.mp h1))
  have hsplit : strings.TrimSpace (strings.ToLower lib s) ∉ ["1", "t", "true", "0", "f", "false"]
      ↔ (strings.TrimSpace (strings.ToLower lib s) ∉ ["1", "t", "true"] ∧
        strings.TrimSpace (strings.ToLower lib s) ∉ ["0", "f", "false"]) := by
    simp only [List.mem_cons, List.mem_singleton, List.not_mem_nil, or_false, not_or]
    tauto
  rw [hsplit, ← ht, ← hf]
  have hdef : transformBool lib s =
      if slices.Contains truthyBooleanValues (strings.TrimSpace (strings.ToLower lib s)) = true
      then .ok (Any.bool true)
      else if slices.Contains falsyBooleanValues (strings.TrimSpace (strings.ToLower lib s)) = true
      then .ok (Any.bool false)
      else .error GoError.InvalidValueError := rfl
  rw [hdef]
  refine ⟨?_, ?_, ?_, rfl, rfl, rfl⟩ <;>
  · generalize slices.Contains truthyBooleanValues (strings.TrimSpace (strings.ToLower lib s))
      = b1 at hdisj2 ⊢
    generalize slices.Contains falsyBooleanValues (strings.TrimSpace (strings.ToLower lib s))
      = b2 at hdisj2 ⊢
    cases b1 <;> cases b2 <;> simp at hdisj2 ⊢

/-- Witness of C7: the text " True " with the library `goLib`. -/
theorem transformBool_spec_witness :
    (∀ r : Char, 0x7F < r.toNat → isAsciiUpper (goLib.caseTable r) = false) ∧
      (transformBool goLib " True " = .ok (Any.bool true) ↔
        strings.TrimSpace (strings.ToLower goLib " True ") ∈ ["1", "t", "true"]) ∧
      (transformBool goLib " True " = .ok (Any.bool false) ↔
        strings.TrimSpace (strings.ToLower goLib " True ") ∈ ["0", "f", "false"]) ∧
      (transformBool goLib " True " = .error GoError.InvalidValueError ↔
        strings.TrimSpace (strings.ToLower goLib " True ")
          ∉ ["1", "t", "true", "0", "f", "false"]) ∧
      transformBool goLib "TRUE" = .ok (Any.bool true) ∧
      transformBool goLib "False" = .ok (Any.bool false) ∧
      transformBool goLib "yes" = .error GoError.InvalidValueError :=
  ⟨isAsciiUpper_caseTable, transformBool_spec goLib isAsciiUpper_caseTable " True "⟩

/-- C8: when the case table never yields an ASCII capital, `transformNull` succeeds, with the
null value, exactly when the lower-cased, trimmed text is "1", "t" or "true", and fails with
`InvalidValueError` for every other text, the texts "0", "f" and "false" included; so
`transformMap` on `{"k": {"NULL": "true"}}` yields `{"k": null}` and on
`{"k": {"NULL": "false"}}` the empty mapping. -/
theorem transformNull_spec (lib : GoLib)
    (hlib : ∀ r : Char, 0x7F < r.toNat → isAsciiUpper (lib.caseTable r) = false) (s : String) :
    (transformNull lib s = .ok Any.nil ↔
        strings.TrimSpace (strings.ToLower lib s) ∈ ["1", "t", "true"]) ∧
      (transformNull lib s = .error GoError.InvalidValueError ↔
        strings.TrimSpace (strings.ToLower lib s) ∉ ["1", "t", "true"]) ∧
      (∀ v, transformNull lib s = .ok v → v = Any.nil) ∧
      transformNull lib "0" = .error GoError.InvalidValueError ∧
      transformNull lib "f" = .error GoError.InvalidValueError ∧
      transformNull lib "false" = .error GoError.InvalidValueError ∧
      transformMap lib [("k", Any.map [("NULL", Any.string "true")])] = .ok [("k", Any.nil)] ∧
      transformMap lib [("k", Any.map [("NULL", Any.string "false")])] = .ok [] := by
  have ht := contains_truthy_iff lib hlib s
  have hdef : transformNull lib s =
      if slices.Contains truthyBooleanValues (strings.TrimSpace (strings.ToLower lib s)) = true
      then .ok Any.nil
      else .error GoError.InvalidValueError := rfl
  rw [← ht]
  refine ⟨?_, ?_, ?_, rfl, rfl, rfl, rfl, rfl⟩
  · rw [hdef]
    cases slices.Contains truthyBooleanValues (strings.TrimSpace (strings.ToLower lib s))
      <;> simp
  · rw [hdef]
    cases slices.Contains truthyBooleanValues (strings.TrimSpace (strings.ToLower lib s))
      <;> simp
  · intro v hv
    unfold transformNull at hv
    simp only [] at hv
    split at hv
    · injection hv with hv
      exact hv.symm
    · exact absurd hv (by simp)

/-- Witness of C8: the text " T " with the library `goLib`. -/
theorem transformNull_spec_witness :
    (∀ r : Char, 0x7F < r.toNat → isAsciiUpper (goLib.caseTable r) = false) ∧
      (transformNull goLib " T " = .ok Any.nil ↔
        strings.TrimSpace (strings.ToLower goLib " T ") ∈ ["1", "t", "true"]) ∧
      (transformNull goLib " T " = .error GoError.InvalidValueError ↔
        strings.TrimSpace (strings.ToLower goLib " T ") ∉ ["1", "t", "true"]) ∧
      (∀ v, transformNull goLib " T " = .ok v → v = Any.nil) ∧
      transformNull goLib "0" = .error GoError.InvalidValueError ∧
      transformNull goLib "f" = .error GoError.InvalidValueError ∧
      transformNull goLib "false" = .error GoError.InvalidValueError ∧
      transformMap goLib [("k", Any.map [("NULL", Any.string "true")])] = .ok [("k", Any.nil)] ∧
      transformMap goLib [("k", Any.map [("NULL", Any.string "false")])] = .ok [] :=
  ⟨isAsciiUpper_caseTable, transformNull_spec goLib isAsciiUpper_caseTable " T "⟩

/-- C9: `transformString` fails with `InvalidValueError` if and only if the text without its
leading and trailing white space is empty, that is if and only if the text is empty or made
of white space only; on every other text it succeeds. -/
theorem transformString_fails_iff (lib : GoLib) (s : String) :
    (transformString lib s = .error GoError.InvalidValueError ↔ strings.TrimSpace s = "") ∧
      (strings.TrimSpace s = "" ↔ allSpace s.data = true) ∧
      ((∃ v, transformString lib s = .ok v) ↔ strings.TrimSpace s ≠ "") := by
  refine ⟨?_, TrimSpace_eq_empty_iff s, ?_⟩
  · unfold transformString
    by_cases h : strings.TrimSpace s = ""
    · simp [h]
    · cases hp : lib.parseRFC3339 (strings.TrimSpace s) <;> simp [h, hp]
  · unfold transformString
    by_cases h : strings.TrimSpace s = ""
    · simp [h]
    · cases hp : lib.parseRFC3339 (strings.TrimSpace s) <;> simp [h, hp]

/-- C10, amended: on a text that is not empty or white space only and whose trimmed form
`time.Parse` with the layout `time.RFC3339` rejects, `transformString` returns exactly the
trimmed text: the text is some white space, then the result, then some white space, and the
result neither starts nor ends with white space. -/
theorem transformString_trimmed_identity (lib : GoLib) (s : String)
    (hne : allSpace s.data = false) (htime : lib.parseRFC3339 (strings.TrimSpace s) = none) :
    transformString lib s = .ok (Any.string (strings.TrimSpace s)) ∧
      (∃ pre post : List Char, s.data = pre ++ (strings.TrimSpace s).data ++ post ∧
        allSpace pre = true ∧ allSpace post = true) ∧
      (∃ c, (strings.TrimSpace s).data.head? = some c ∧ unicode.IsSpace c = false) ∧
      (∃ c, (strings.TrimSpace s).data.getLast? = some c ∧ unicode.IsSpace c = false) := by
  have hnonempty : strings.TrimSpace s ≠ "" := by
    intro h
    rw [(TrimSpace_eq_empty_iff s).mp h] at hne
    exact Bool.noConfusion hne
  have hdata : (strings.TrimSpace s).data ≠ [] :=
    fun h => hnonempty ((string_eq_empty_iff _).mpr h)
  refine ⟨?_, TrimSpace_decompose s, ?_, ?_⟩
  · unfold transformString
    simp [hnonempty, htime]
  · cases hd : (strings.TrimSpace s).data with
    | nil => exact absurd hd hdata
    | cons c rest =>
      refine ⟨c, rfl, TrimSpace_head_not_space s c ?_⟩
      rw [hd]
      rfl
  · refine ⟨(strings.TrimSpace s).data.getLast hdata, List.getLast?_eq_getLast _ hdata,
      TrimSpace_last_not_space s _ (List.getLast?_eq_getLast _ hdata)⟩

/-- Witness of C10 as amended: the text "  hi  " gives "hi". -/
theorem transformString_trimmed_identity_witness :
    allSpace "  hi  ".data = false ∧ goLib.parseRFC3339 (strings.TrimSpace "  hi  ") = none ∧
      strings.TrimSpace "  hi  " = "hi" ∧
      transformString goLib "  hi  " = .ok (Any.string "hi") :=
  ⟨by decide, by decide, by decide,
    (transformString_trimmed_identity goLib "  hi  " (by decide) (by decide)).1⟩

theorem transformString_identity_iff (lib : GoLib) (s : String) (hne : allSpace s.data = false) :
    transformString lib s = .ok (Any.string (strings.TrimSpace s)) ↔
      lib.parseRFC3339 (strings.TrimSpace s) = none := by
  have hnonempty : strings.TrimSpace s ≠ "" := by
    intro h
    rw [(TrimSpace_eq_empty_iff s).mp h] at hne
    exact Bool.noConfusion hne
  unfold transformString
  cases hp : lib.parseRFC3339 (strings.TrimSpace s) <;> simp [hnonempty, hp]

/-! ## Lemmas on properties of every value of the output -/

theorem ForallEntries_mapAssign (P : Any → Prop) (m : GoMap) (key : String) (v : Any)
    (hm : Any.ForallEntries P m) (hv : Any.Forall P v) :
    Any.ForallEntries P (mapAssign m key v) := by
  induction m with
  | nil => exact ⟨hv, trivial⟩
  | cons e rest ih =>
    obtain ⟨k, w⟩ := e
    simp only [Any.ForallEntries] at hm
    by_cases hkk : k = key
    · simp only [mapAssign, hkk, if_true, Any.ForallEntries]
      exact ⟨hv, hm.2⟩
    · simp only [mapAssign, hkk, if_false, Any.ForallEntries]
      exact ⟨hm.1, ih hm.2⟩

theorem ForallItems_concat (P : Any → Prop) (items : List Any) (v : Any)
    (hi : Any.ForallItems P items) (hv : Any.Forall P v) :
    Any.ForallItems P (items ++ [v]) := by
  induction items with
  | nil => exact ⟨hv, trivial⟩
  | cons x rest ih =>
    simp only [Any.ForallItems, List.cons_append] at hi ⊢
    exact ⟨hi.1, ih hi.2⟩

theorem not_mem_mapKeys_mapAssign (m : GoMap) (key k : String) (v : Any)
    (hm : k ∉ MapKeys m) (hk : k ≠ key) : k ∉ MapKeys (mapAssign m key v) := by
  induction m with
  | nil => simpa [mapAssign, MapKeys] using hk
  | cons e rest ih =>
    obtain ⟨k2, w⟩ := e
    simp only [MapKeys, List.map_cons, List.mem_cons, not_or] at hm
    by_cases hkk : k2 = key
    · simp only [mapAssign, hkk, if_true, MapKeys, List.map_cons, List.mem_cons, not_or]
      exact ⟨hk, hm.2⟩
    · simp only [mapAssign, hkk, if_false, MapKeys, List.map_cons, List.mem_cons, not_or]
      exact ⟨hm.1, ih hm.2⟩

theorem empty_not_mem_transformMapLoop (lib : GoLib) (doc acc : GoMap)
    (hacc : "" ∉ MapKeys acc) : "" ∉ MapKeys (transformMapLoop lib doc acc) := by
  induction doc generalizing acc with
  | nil => simpa [transformMapLoop] using hacc
  | cons e rest ih =>
    rw [transformMapLoop_cons]
    cases hr : mapEntryResult lib e with
    | none => exact ih acc hacc
    | some r =>
      simp only []
      apply ih
      apply not_mem_mapKeys_mapAssign _ _ _ _ hacc
      have hkey := mapEntryResult_key lib e r hr
      intro h
      unfold mapEntryResult at hr
      rw [hkey] at h
      simp [← h] at hr

theorem nil_not_mem_transformListLoop (lib : GoLib) (items acc : List Any)
    (hacc : Any.nil ∉ acc) : Any.nil ∉ transformListLoop lib items acc := by
  rw [transformListLoop_eq_filterMap]
  intro h
  rcases List.mem_append.mp h with h | h
  · exact hacc h
  · obtain ⟨item, _, hres⟩ := List.mem_filterMap.mp h
    cases item with
    | map node =>
      cases hv : transformValue lib node with
      | error err => simp [listItemResult, hv] at hres
      | ok w => cases w <;> simp [listItemResult, hv] at hres
    | _ => simp [listItemResult] at hres

theorem Forall_of_isScalar (P : Any → Prop) (v : Any) (hs : v.isScalar = true) (hv : P v) :
    Any.Forall P v := by
  cases v <;> simp [Any.isScalar] at hs <;> simpa [Any.Forall] using hv

theorem transformString_isScalar (lib : GoLib) (s : String) (v : Any)
    (h : transformString lib s = .ok v) : v.isScalar = true := by
  unfold transformString at h
  simp only [] at h
  split at h
  · exact absurd h (by simp)
  · split at h <;> (injection h with h; subst h; rfl)

theorem transformNumber_isScalar (lib : GoLib) (s : String) (v : Any)
    (h : transformNumber lib s = .ok v) : v.isScalar = true := by
  unfold transformNumber at h
  simp only [] at h
  split at h
  · injection h with h; subst h; rfl
  · exact absurd h (by simp)

theorem transformBool_isScalar (lib : GoLib) (s : String) (v : Any)
    (h : transformBool lib s = .ok v) : v.isScalar = true := by
  unfold transformBool at h
  simp only [] at h
  split at h
  · injection h with h; subst h; rfl
  · split at h
    · injection h with h; subst h; rfl
    · exact absurd h (by simp)

theorem transformNull_isScalar (lib : GoLib) (s : String) (v : Any)
    (h : transformNull lib s = .ok v) : v.isScalar = true := by
  unfold transformNull at h
  simp only [] at h
  split at h
  · injection h with h; subst h; rfl
  · exact absurd h (by simp)

mutual
theorem transformMapLoop_forall (lib : GoLib) (P : Any → Prop) (hP : OutputProperty lib P) :
    ∀ (doc acc : GoMap), Any.ForallEntries P acc →
      Any.ForallEntries P (transformMapLoop lib doc acc)
  | [], acc, h => by simpa [transformMapLoop] using h
  | (key, value) :: rest, acc, h => by
    rw [transformMapLoop_cons]
    cases hr : mapEntryResult lib (key, value) with
    | none => exact transformMapLoop_forall lib P hP rest acc h
    | some r =>
      simp only []
      apply transformMapLoop_forall lib P hP rest
      unfold mapEntryResult at hr
      by_cases hk : key = ""
      · simp [hk] at hr
      · cases value with
        | map node =>
          cases hv : transformValue lib node with
          | error err => simp [hk, hv] at hr
          | ok w =>
            simp only [hk, hv, if_false, Option.some.injEq] at hr
            subst hr
            exact ForallEntries_mapAssign P acc key w h
              (transformValue_forall lib P hP node w hv)
        | _ => simp [hk] at hr

theorem transformValue_forall (lib : GoLib) (P : Any → Prop) (hP : OutputProperty lib P) :
    ∀ (node : GoMap) (v : Any), transformValue lib node = .ok v → Any.Forall P v
  | [], v, h => by
    simp only [transformValue] at h
    injection h with h; subst h
    exact hP.inert
  | (dataType, val) :: rest, v, h => by
    rw [transformValue_cons] at h
    by_cases hd : entryDecides (dataType, val) = true
    · simp only [hd, if_true] at h
      unfold applyRule at h
      cases val with
      | string s =>
        simp only [] at h
        split at h
        · exact Forall_of_isScalar P v (transformString_isScalar lib s v h) (hP.string s v h)
        · split at h
          · exact Forall_of_isScalar P v (transformNumber_isScalar lib s v h) (hP.number s v h)
          · split at h
            · exact Forall_of_isScalar P v (transformBool_isScalar lib s v h) (hP.bool s v h)
            · split at h
              · exact Forall_of_isScalar P v (transformNull_isScalar lib s v h) (hP.null s v h)
              · split at h
                · exact transformList_forall lib P hP _ v h
                · injection h with h; subst h; exact hP.inert
      | map m =>
        simp only [transformMap] at h
        split at h
        · injection h with h; subst h
          simp only [Any.Forall]
          exact ⟨hP.map _ (empty_not_mem_transformMapLoop lib m [] (by simp [MapKeys])),
            transformMapLoop_forall lib P hP m [] trivial⟩
        · split at h
          · exact transformList_forall lib P hP _ v h
          · injection h with h; subst h; exact hP.inert
      | _ =>
        simp only [] at h
        split at h
        · exact transformList_forall lib P hP _ v h
        · injection h with h; subst h; exact hP.inert
    · simp only [hd] at h
      exact transformValue_forall lib P hP rest v h

theorem transformList_forall (lib : GoLib) (P : Any → Prop) (hP : OutputProperty lib P) :
    ∀ (val v : Any), transformList lib val = .ok v → Any.Forall P v
  | .slice items, v, h => by
    simp only [transformList] at h
    injection h with h; subst h
    simp only [Any.Forall]
    exact ⟨hP.slice _ (nil_not_mem_transformListLoop lib items [] (by simp)),
      transformListLoop_forall lib P hP items [] trivial⟩
  | .nil, v, h => by simp [transformList] at h
  | .bool _, v, h => by simp [transformList] at h
  | .float64 _, v, h => by simp [transformList] at h
  | .int64 _, v, h => by simp [transformList] at h
  | .string _, v, h => by simp [transformList] at h
  | .map _, v, h => by simp [transformList] at h

theorem transformListLoop_forall (lib : GoLib) (P : Any → Prop) (hP : OutputProperty lib P) :
    ∀ (items acc : List Any), Any.ForallItems P acc →
      Any.ForallItems P (transformListLoop lib items acc)
  | [], acc, h => by simpa [transformListLoop] using h
  | item :: rest, acc, h => by
    rw [transformListLoop_cons]
    cases hr : listItemResult lib item with
    | none => exact transformListLoop_forall lib P hP rest acc h
    | some w =>
      simp only []
      apply transformListLoop_forall lib P hP rest
      apply ForallItems_concat P acc w h
      unfold listItemResult at hr
      cases item with
      | map node =>
        cases hv : transformValue lib node with
        | error err => simp [hv] at hr
        | ok u =>
          have hu := transformValue_forall lib P hP node u hv
          cases u <;> simp [hv] at hr <;> (subst hr; exact hu)
      | _ => simp at hr
end

theorem transformMap_forall (lib : GoLib) (P : Any → Prop) (hP : OutputProperty lib P)
    (doc : GoMap) : Any.Forall P (Any.map (transformMapLoop lib doc [])) := by
  simp only [Any.Forall]
  exact ⟨hP.map _ (empty_not_mem_transformMapLoop lib doc [] (by simp [MapKeys])),
    transformMapLoop_forall lib P hP doc [] trivial⟩

theorem sizeEntries_append (xs ys : List (String × Any)) :
    Any.sizeEntries (xs ++ ys) = Any.sizeEntries xs + Any.sizeEntries ys := by
  induction xs with
  | nil => simp [Any.sizeEntries]
  | cons e rest ih =>
    obtain ⟨k, v⟩ := e
    rw [List.cons_append]
    simp only [Any.sizeEntries]
    rw [ih]
    omega

theorem sizeItems_append (xs ys : List Any) :
    Any.sizeItems (xs ++ ys) = Any.sizeItems xs + Any.sizeItems ys := by
  induction xs with
  | nil => simp [Any.sizeItems]
  | cons e rest ih =>
    rw [List.cons_append]
    simp only [Any.sizeItems]
    rw [ih]
    omega

theorem transformMap_single (lib : GoLib) (k : String) (node : GoMap) :
    transformMap lib [(k, Any.map node)] =
      match mapEntryResult lib (k, Any.map node) with
      | some r => .ok [r]
      | none => .ok [] := by
  simp only [transformMap, transformMapLoop_cons]
  cases mapEntryResult lib (k, Any.map node) <;> simp [transformMapLoop, mapAssign]

theorem transformMap_single_scalar (lib : GoLib) (k tag s : String)
    (rule : Except GoError Any) (hrule : transformValue lib [(tag, Any.string s)] = rule) :
    (k ≠ "" ∧ ∃ v, rule = .ok v ∧
        transformMap lib [(k, Any.map [(tag, Any.string s)])] = .ok [(k, v)]) ∨
      ((k = "" ∨ rule = .error GoError.InvalidValueError) ∧
        transformMap lib [(k, Any.map [(tag, Any.string s)])] = .ok []) := by
  rw [transformMap_single]
  unfold mapEntryResult
  by_cases hk : k = ""
  · right
    simp [hk]
  · simp only [hk, if_false, hrule]
    cases rule with
    | ok v => left; exact ⟨hk, v, rfl, rfl⟩
    | error e => cases e; right; exact ⟨Or.inr rfl, rfl⟩

/-- C14: `transformMap` never fails: on every mapping it returns a mapping with a nil error;
for a node with a single `S`, `N`, `BOOL` or `NULL` entry whose payload is a string, the
result on `{"k": node}` is the one-entry mapping of `k` to the value of the scalar rule, or,
when the rule fails or `k` is empty, the empty mapping. -/
theorem transformMap_never_fails (lib : GoLib) :
    (∀ doc : GoMap, ∃ out, transformMap lib doc = .ok out) ∧
    (∀ k s : String,
      ((k ≠ "" ∧ ∃ v, transformString lib s = .ok v ∧
          transformMap lib [(k, Any.map [("S", Any.string s)])] = .ok [(k, v)]) ∨
        ((k = "" ∨ transformString lib s = .error GoError.InvalidValueError) ∧
          transformMap lib [(k, Any.map [("S", Any.string s)])] = .ok [])) ∧
      ((k ≠ "" ∧ ∃ v, transformNumber lib s = .ok v ∧
          transformMap lib [(k, Any.map [("N", Any.string s)])] = .ok [(k, v)]) ∨
        ((k = "" ∨ transformNumber lib s = .error GoError.InvalidValueError) ∧
          transformMap lib [(k, Any.map [("N", Any.string s)])] = .ok [])) ∧
      ((k ≠ "" ∧ ∃ v, transformBool lib s = .ok v ∧
          transformMap lib [(k, Any.map [("BOOL", Any.string s)])] = .ok [(k, v)]) ∨
        ((k = "" ∨ transformBool lib s = .error GoError.InvalidValueError) ∧
          transformMap lib [(k, Any.map [("BOOL", Any.string s)])] = .ok [])) ∧
      ((k ≠ "" ∧ ∃ v, transformNull lib s = .ok v ∧
          transformMap lib [(k, Any.map [("NULL", Any.string s)])] = .ok [(k, v)]) ∨
        ((k = "" ∨ transformNull lib s = .error GoError.InvalidValueError) ∧
          transformMap lib [(k, Any.map [("NULL", Any.string s)])] = .ok []))) := by
  refine ⟨fun doc => ⟨transformMapLoop lib doc [], rfl⟩, fun k s => ⟨?_, ?_, ?_, ?_⟩⟩
  · exact transformMap_single_scalar lib k "S" s _ (by simp [transformValue])
  · exact transformMap_single_scalar lib k "N" s _ (by simp [transformValue])
  · exact transformMap_single_scalar lib k "BOOL" s _ (by simp [transformValue])
  · exact transformMap_single_scalar lib k "NULL" s _ (by simp [transformValue])

/-- C18: on the single-entry node `{"M": m}`, `transformValue` returns exactly what
`transformMap` returns on `m`; the node `{"M": {"inner": {"S": "v"}}}` transforms to the
mapping `{"inner": "v"}`. -/
theorem transformValue_M_node (lib : GoLib) (m : GoMap) :
    transformValue lib [("M", Any.map m)] =
        (match transformMap lib m with
          | .ok out => .ok (Any.map out)
          | .error err => .error err) ∧
      (∃ out, transformMap lib m = .ok out ∧
        transformValue lib [("M", Any.map m)] = .ok (Any.map out)) ∧
      transformValue goLib [("M", Any.map [("inner", Any.map [("S", Any.string "v")])])]
        = .ok (Any.map [("inner", Any.string "v")]) :=
  ⟨transformValue_M lib m [], ⟨transformMapLoop lib m [], rfl, by simp [transformValue]⟩, rfl⟩

/-- C15: failures stay inside the collection that holds them: on `{"M": m}` and on
`{"L": xs}`, `transformValue` succeeds, with `transformMap m` and with the transformed elements
of `xs` that succeed with a value other than null; so in a document without repeated key, a
non-empty key `k` that holds such a node is present in the output with that value, and an inner
entry of `m` with a non-empty key whose node succeeds is kept. -/
theorem collections_absorb_failures (lib : GoLib) (doc : GoMap) (k : String)
    (hdoc : (MapKeys doc).Nodup) (hk : k ≠ "") :
    (∀ m : GoMap, ∃ inner, transformMap lib m = .ok inner ∧
        transformValue lib [("M", Any.map m)] = .ok (Any.map inner) ∧
        ((k, Any.map [("M", Any.map m)]) ∈ doc →
          ∃ out, transformMap lib doc = .ok out ∧ (k, Any.map inner) ∈ out) ∧
        ((MapKeys m).Nodup → ∀ k2 node v, k2 ≠ "" → (k2, Any.map node) ∈ m →
          transformValue lib node = .ok v → (k2, v) ∈ inner)) ∧
    (∀ xs : List Any,
        transformValue lib [("L", Any.slice xs)]
          = .ok (Any.slice (xs.filterMap (listItemResult lib))) ∧
        ((k, Any.map [("L", Any.slice xs)]) ∈ doc →
          ∃ out, transformMap lib doc = .ok out ∧
            (k, Any.slice (xs.filterMap (listItemResult lib))) ∈ out)) := by
  have hloop : transformMapLoop lib doc [] = doc.filterMap (mapEntryResult lib) := by
    rw [transformMapLoop_eq_filterMap lib doc [] (by simpa [MapKeys] using hdoc)]
    simp
  constructor
  · intro m
    have hM : transformValue lib [("M", Any.map m)] = .ok (Any.map (transformMapLoop lib m [])) := by
      simp [transformValue]
    refine ⟨transformMapLoop lib m [], rfl, hM, ?_, ?_⟩
    · intro hmem
      refine ⟨doc.filterMap (mapEntryResult lib), by simp [transformMap, hloop], ?_⟩
      exact (mem_filterMap_mapEntryResult lib doc k _).mpr ⟨hk, _, hmem, hM⟩
    · intro hm k2 node v hk2 hmem hv
      rw [transformMapLoop_eq_filterMap lib m [] (by simpa [MapKeys] using hm)]
      simp only [List.nil_append]
      exact (mem_filterMap_mapEntryResult lib m k2 v).mpr ⟨hk2, node, hmem, hv⟩
  · intro xs
    have hL : transformValue lib [("L", Any.slice xs)]
        = .ok (Any.slice (xs.filterMap (listItemResult lib))) := by
      simp [transformValue, transformList, transformListLoop_eq_filterMap]
    refine ⟨hL, ?_⟩
    intro hmem
    refine ⟨doc.filterMap (mapEntryResult lib), by simp [transformMap, hloop], ?_⟩
    exact (mem_filterMap_mapEntryResult lib doc k _).mpr ⟨hk, _, hmem, hL⟩

/-- Witness of C15: the keys `k` and `l` of `nestedDoc`; the output keeps both, without the
inner entries and elements that fail. -/
theorem collections_absorb_failures_witness :
    (MapKeys nestedDoc).Nodup ∧ "k" ≠ "" ∧
      transformMap goLib nestedDoc
        = .ok [("k", Any.map [("good", Any.string "a")]), ("l", Any.slice [Any.string "b"])] ∧
      ((∀ m : GoMap, ∃ inner, transformMap goLib m = .ok inner ∧
          transformValue goLib [("M", Any.map m)] = .ok (Any.map inner) ∧
          (("k", Any.map [("M", Any.map m)]) ∈ nestedDoc →
            ∃ out, transformMap goLib nestedDoc = .ok out ∧ ("k", Any.map inner) ∈ out) ∧
          ((MapKeys m).Nodup → ∀ k2 node v, k2 ≠ "" → (k2, Any.map node) ∈ m →
            transformValue goLib node = .ok v → (k2, v) ∈ inner)) ∧
        (∀ xs : List Any,
          transformValue goLib [("L", Any.slice xs)]
            = .ok (Any.slice (xs.filterMap (listItemResult goLib))) ∧
          (("k", Any.map [("L", Any.slice xs)]) ∈ nestedDoc →
            ∃ out, transformMap goLib nestedDoc = .ok out ∧
              ("k", Any.slice (xs.filterMap (listItemResult goLib))) ∈ out))) :=
  ⟨by decide, by decide, rfl, collections_absorb_failures goLib nestedDoc "k" (by decide) (by decide)⟩

theorem outputProperty_noNullElement (lib : GoLib) : OutputProperty lib Any.noNullElement where
  string := fun s v h => by
    have := transformString_isScalar lib s v h
    cases v <;> simp [Any.isScalar] at this <;> trivial
  number := fun s v h => by
    have := transformNumber_isScalar lib s v h
    cases v <;> simp [Any.isScalar] at this <;> trivial
  bool := fun s v h => by
    have := transformBool_isScalar lib s v h
    cases v <;> simp [Any.isScalar] at this <;> trivial
  null := fun s v h => by
    have := transformNull_isScalar lib s v h
    cases v <;> simp [Any.isScalar] at this <;> trivial
  inert := trivial
  slice := fun _ h => h
  map := fun _ _ => trivial

theorem outputProperty_cleanString (lib : GoLib) : OutputProperty lib (Any.cleanString lib) where
  string := fun s v h => by
    unfold transformString at h
    simp only [] at h
    split at h
    · exact absurd h (by simp)
    · rename_i hne
      split at h
      · injection h with h; subst h; trivial
      · rename_i hparse
        injection h with h; subst h
        exact ⟨hne, TrimSpace_head_not_space s, TrimSpace_last_not_space s, hparse⟩
  number := fun s v h => by
    unfold transformNumber at h
    simp only [] at h
    split at h
    · injection h with h; subst h; trivial
    · exact absurd h (by simp)
  bool := fun s v h => by
    unfold transformBool at h
    simp only [] at h
    split at h
    · injection h with h; subst h; trivial
    · split at h
      · injection h with h; subst h; trivial
      · exact absurd h (by simp)
  null := fun s v h => by
    unfold transformNull at h
    simp only [] at h
    split at h
    · injection h with h; subst h; trivial
    · exact absurd h (by simp)
  inert := trivial
  slice := fun _ _ => trivial
  map := fun _ _ => trivial

theorem outputProperty_parsedNumber (lib : GoLib) :
    OutputProperty lib (Any.parsedNumber lib) where
  string := fun s v h => by
    unfold transformString at h
    simp only [] at h
    split at h
    · exact absurd h (by simp)
    · split at h <;> (injection h with h; subst h; trivial)
  number := fun s v h => by
    unfold transformNumber at h
    simp only [] at h
    split at h
    · rename_i n hn
      injection h with h; subst h
      exact ⟨_, hn⟩
    · exact absurd h (by simp)
  bool := fun s v h => by
    unfold transformBool at h
    simp only [] at h
    split at h
    · injection h with h; subst h; trivial
    · split at h
      · injection h with h; subst h; trivial
      · exact absurd h (by simp)
  null := fun s v h => by
    unfold transformNull at h
    simp only [] at h
    split at h
    · injection h with h; subst h; trivial
    · exact absurd h (by simp)
  inert := trivial
  slice := fun _ _ => trivial
  map := fun _ _ => trivial

mutual
theorem Forall_mono (P Q : Any → Prop) (hPQ : ∀ a, P a → Q a) :
    ∀ a : Any, Any.Forall P a → Any.Forall Q a
  | .slice items, h => by
    simp only [Any.Forall] at h ⊢
    exact ⟨hPQ _ h.1, ForallItems_mono P Q hPQ items h.2⟩
  | .map entries, h => by
    simp only [Any.Forall] at h ⊢
    exact ⟨hPQ _ h.1, ForallEntries_mono P Q hPQ entries h.2⟩
  | .nil, h => by simp only [Any.Forall] at h ⊢; exact hPQ _ h
  | .bool _, h => by simp only [Any.Forall] at h ⊢; exact hPQ _ h
  | .float64 _, h => by simp only [Any.Forall] at h ⊢; exact hPQ _ h
  | .int64 _, h => by simp only [Any.Forall] at h ⊢; exact hPQ _ h
  | .string _, h => by simp only [Any.Forall] at h ⊢; exact hPQ _ h

theorem ForallItems_mono (P Q : Any → Prop) (hPQ : ∀ a, P a → Q a) :
    ∀ items : List Any, Any.ForallItems P items → Any.ForallItems Q items
  | [], _ => trivial
  | item :: rest, h => by
    simp only [Any.ForallItems] at h ⊢
    exact ⟨Forall_mono P Q hPQ item h.1, ForallItems_mono P Q hPQ rest h.2⟩

theorem ForallEntries_mono (P Q : Any → Prop) (hPQ : ∀ a, P a → Q a) :
    ∀ entries : List (String × Any), Any.ForallEntries P entries → Any.ForallEntries Q entries
  | [], _ => trivial
  | (_, value) :: rest, h => by
    simp only [Any.ForallEntries] at h ⊢
    exact ⟨Forall_mono P Q hPQ value h.1, ForallEntries_mono P Q hPQ rest h.2⟩
end

/-- C17: no sequence anywhere in the output of `transformMap` holds the null value as an
element, while in a document without repeated key a non-empty key whose node transforms to
null without error is kept in the output with the value null, as is `k` for the node
`{"NULL": "true"}`. -/
theorem nulls_dropped_in_lists_kept_in_maps (lib : GoLib) :
    (∀ doc : GoMap, ∃ out, transformMap lib doc = .ok out ∧
      Any.Forall Any.noNullElement (Any.map out)) ∧
    (∀ (doc : GoMap) (k : String) (node : GoMap), (MapKeys doc).Nodup → k ≠ "" →
      (k, Any.map node) ∈ doc → transformValue lib node = .ok Any.nil →
      ∃ out, transformMap lib doc = .ok out ∧ (k, Any.nil) ∈ out) ∧
    transformValue lib [("NULL", Any.string "true")] = .ok Any.nil ∧
    transformMap lib [("k", Any.map [("NULL", Any.string "true")])] = .ok [("k", Any.nil)] ∧
    transformList lib (Any.slice [Any.map [("NULL", Any.string "true")], Any.map []])
      = .ok (Any.slice []) := by
  refine ⟨?_, ?_, rfl, rfl, rfl⟩
  · intro doc
    exact ⟨transformMapLoop lib doc [], rfl,
      transformMap_forall lib _ (outputProperty_noNullElement lib) doc⟩
  · intro doc k node hdoc hk hmem hnull
    have hloop : transformMapLoop lib doc [] = doc.filterMap (mapEntryResult lib) := by
      rw [transformMapLoop_eq_filterMap lib doc [] (by simpa [MapKeys] using hdoc)]
      simp
    refine ⟨doc.filterMap (mapEntryResult lib), by simp [transformMap, hloop], ?_⟩
    exact (mem_filterMap_mapEntryResult lib doc k Any.nil).mpr ⟨hk, node, hmem, hnull⟩

/-- Witness of C17: the key `null` of `exampleDoc`, whose node is `{"NULL": "true"}`. -/
theorem nulls_dropped_in_lists_kept_in_maps_witness :
    (MapKeys exampleDoc).Nodup ∧ "null" ≠ "" ∧
      ("null", Any.map [("NULL", Any.string "true")]) ∈ exampleDoc ∧
      transformValue goLib [("NULL", Any.string "true")] = .ok Any.nil ∧
      ∃ out, transformMap goLib exampleDoc = .ok out ∧ ("null", Any.nil) ∈ out :=
  ⟨by decide, by decide, by simp [exampleDoc], rfl,
    (nulls_dropped_in_lists_kept_in_maps goLib).2.1 exampleDoc "null"
      [("NULL", Any.string "true")] (by decide) (by decide) (by simp [exampleDoc]) rfl⟩

/-- C19: the three functions return a result on every input, and each recursive call is on
a strictly smaller value: the node of an entry of the map for `transformMap`, the payload of
an entry of the node for `transformValue` (handed to `transformList` or to `transformMap`),
the node of an element of the sequence for `transformList`; sizes count the values of the
input tree. -/
theorem recursion_on_strict_sub_values :
    (∀ (lib : GoLib) (doc : GoMap), ∃ out, transformMap lib doc = .ok out) ∧
    (∀ (lib : GoLib) (node : GoMap), (∃ v, transformValue lib node = .ok v) ∨
      transformValue lib node = .error GoError.InvalidValueError) ∧
    (∀ (lib : GoLib) (val : Any), (∃ items, transformList lib val = .ok (Any.slice items)) ∨
      transformList lib val = .error GoError.InvalidValueError) ∧
    (∀ (before after : GoMap) (key : String) (valueMap : GoMap),
      Any.sizeEntries valueMap
        < Any.sizeEntries (before ++ (key, Any.map valueMap) :: after)) ∧
    (∀ (before after : GoMap) (dataType : String) (val : Any),
      Any.size val < Any.sizeEntries (before ++ (dataType, val) :: after)) ∧
    (∀ (before after : GoMap) (dataType : String) (v : GoMap),
      Any.sizeEntries v < Any.sizeEntries (before ++ (dataType, Any.map v) :: after)) ∧
    (∀ (before after : List Any) (itemMap : GoMap),
      Any.sizeEntries itemMap
        < Any.size (Any.slice (before ++ Any.map itemMap :: after))) := by
  refine ⟨fun lib doc => ⟨transformMapLoop lib doc [], rfl⟩, ?_, ?_, ?_, ?_, ?_, ?_⟩
  · intro lib node
    cases h : transformValue lib node with
    | ok v => exact Or.inl ⟨v, rfl⟩
    | error e => cases e; exact Or.inr rfl
  · intro lib val
    cases val with
    | slice items => exact Or.inl ⟨_, rfl⟩
    | _ => exact Or.inr rfl
  · intro before after key valueMap
    rw [sizeEntries_append]
    simp only [Any.sizeEntries, Any.size]
    omega
  · intro before after dataType val
    rw [sizeEntries_append]
    simp only [Any.sizeEntries]
    omega
  · intro before after dataType v
    rw [sizeEntries_append]
    simp only [Any.sizeEntries, Any.size]
    omega
  · intro before after itemMap
    simp only [Any.size, sizeItems_append, Any.sizeItems]
    omega

theorem parseFloatChars_finite_or_special (cs : List Char) (x : Float64)
    (h : strconv.parseFloatChars cs = some x) :
    x.isFinite = true ∨ strconv.special cs = some x := by
  unfold strconv.parseFloatChars at h
  cases hsp : strconv.special cs with
  | some f =>
    rw [hsp] at h
    simp only [Option.some.injEq] at h
    exact Or.inr (by rw [h])
  | none =>
    left
    rw [hsp] at h
    simp only [] at h
    cases hr : strconv.readFloat cs with
    | none => rw [hr] at h; exact absurd h (by simp)
    | some r =>
      obtain ⟨neg, num, den⟩ := r
      rw [hr] at h
      simp only [] at h
      cases hb : strconv.roundBinary64 num den with
      | none => rw [hb] at h; exact absurd h (by simp)
      | some me =>
        obtain ⟨m, e⟩ := me
        rw [hb] at h
        simp only [Option.some.injEq] at h
        subst h
        rfl

theorem special_not_finite (cs : List Char) (x : Float64) (h : strconv.special cs = some x) :
    x = Float64.nan ∨ x = Float64.inf false ∨ x = Float64.inf true := by
  unfold strconv.special at h
  simp only [] at h
  split at h
  · exact absurd h (by simp)
  · split at h
    · simp only [Option.some.injEq] at h; subst h; simp
    · exact absurd h (by simp)
  · split at h
    · simp only [Option.some.injEq] at h; subst h; simp
    · exact absurd h (by simp)
  · split at h
    · simp only [Option.some.injEq] at h; subst h; simp
    · split at h
      · simp only [Option.some.injEq] at h; subst h; simp
      · exact absurd h (by simp)

set_option exponentiation.threshold 2000 in
set_option maxRecDepth 100000 in
theorem transformNumber_overflow :
    transformNumber goLib "1e400" = .error GoError.InvalidValueError := by rfl

theorem parsed_numbers_finite_or_special (s : String) (x : Float64)
    (h : goLib.parseFloat s = some x) :
    x.isFinite = true ∨ (strconv.special s.data = some x ∧
      (x = Float64.nan ∨ x = Float64.inf false ∨ x = Float64.inf true)) := by
  rcases parseFloatChars_finite_or_special s.data x h with hf | hs
  · exact Or.inl hf
  · exact Or.inr ⟨hs, special_not_finite s.data x hs⟩

theorem output_numbers_are_parse_results (lib : GoLib) (doc : GoMap) :
    ∃ out, transformMap lib doc = .ok out ∧ Any.Forall (Any.parsedNumber lib) (Any.map out) :=
  ⟨transformMapLoop lib doc [], rfl,
    transformMap_forall lib _ (outputProperty_parsedNumber lib) doc⟩

set_option exponentiation.threshold 2000 in
set_option maxRecDepth 100000 in
/-- C13, the code at the failing input: for the `N` payloads "NaN", "Inf" and "-Infinity"
`transformNumber` succeeds and the output of `transformMap` holds NaN, +Inf and -Inf, numbers
that are not finite, whereas the payload "1e400", whose value overflows, is rejected with
`InvalidValueError` and its entry is omitted. -/
theorem transformMap_emits_nan_and_infinities :
    transformMap goLib [("a", Any.map [("N", Any.string "NaN")]),
        ("b", Any.map [("N", Any.string "Inf")]), ("c", Any.map [("N", Any.string "-Infinity")])]
      = .ok [("a", Any.float64 Float64.nan), ("b", Any.float64 (Float64.inf false)),
          ("c", Any.float64 (Float64.inf true))] ∧
    ¬ Any.Forall Any.finiteNumber (Any.map [("a", Any.float64 Float64.nan),
        ("b", Any.float64 (Float64.inf false)), ("c", Any.float64 (Float64.inf true))]) ∧
    transformNumber goLib "NaN" = .ok (Any.float64 Float64.nan) ∧
    transformNumber goLib "1e400" = .error GoError.InvalidValueError ∧
    transformMap goLib [("k", Any.map [("N", Any.string "1e400")])] = .ok [] := by
  refine ⟨rfl, ?_, rfl, rfl, rfl⟩
  intro h
  simp [Any.Forall, Any.ForallEntries, Any.finiteNumber, Float64.isFinite] at h

/-! ## Lemmas on the parser of timestamps -/

theorem digitChar_toNat (d : Nat) (h : d < 10) : (digitChar d).toNat = 48 + d := by
  have h0 : ('0'.toNat : Nat) = 48 := rfl
  unfold digitChar
  rw [h0, char_toNat_ofNat _ (by omega)]

theorem isDigit_digitChar (d : Nat) (h : d < 10) : time.isDigit (digitChar d) = true := by
  have h0 : ('0'.toNat : Nat) = 48 := rfl
  have h9 : ('9'.toNat : Nat) = 57 := rfl
  simp only [time.isDigit, digitChar_toNat d h, h0, h9, decide_eq_true_eq]
  omega

theorem digit_digitChar (d : Nat) (h : d < 10) : time.digit (digitChar d) = d := by
  have h0 : ('0'.toNat : Nat) = 48 := rfl
  simp only [time.digit, digitChar_toNat d h, h0]
  omega

theorem getnum_digits2 (n : Nat) (h : n < 100) (rest : List Char) (fixed : Bool) :
    time.getnum (digits2 n ++ rest) fixed = some (n, rest) := by
  have h1 : n / 10 < 10 := by omega
  have h2 : n % 10 < 10 := by omega
  simp only [digits2, List.cons_append, List.nil_append, time.getnum, isDigit_digitChar _ h1,
    isDigit_digitChar _ h2, digit_digitChar _ h1, digit_digitChar _ h2, if_true]
  congr 2
  omega

theorem getyear_digits4 (n : Nat) (h : n < 10000) (rest : List Char) :
    time.getyear (digits4 n ++ rest) = some (n, rest) := by
  have h1 : n / 1000 < 10 := by omega
  have h2 : n / 100 % 10 < 10 := by omega
  have h3 : n / 10 % 10 < 10 := by omega
  have h4 : n % 10 < 10 := by omega
  simp only [digits4, List.cons_append, List.nil_append, time.getyear, isDigit_digitChar _ h1,
    isDigit_digitChar _ h2, isDigit_digitChar _ h3, isDigit_digitChar _ h4,
    digit_digitChar _ h1, digit_digitChar _ h2, digit_digitChar _ h3, digit_digitChar _ h4,
    Bool.and_self, if_true]
  congr 2
  omega

theorem skip_cons (c : Char) (rest : List Char) : time.skip (c :: rest) c = some rest := by
  simp [time.skip]

theorem dropWhile_isDigit_digits (ds : List Nat) (hds : ∀ d ∈ ds, d < 10) (z : Char)
    (zs : List Char) (hz : time.isDigit z = false) :
    List.dropWhile time.isDigit (ds.map digitChar ++ z :: zs) = z :: zs := by
  induction ds with
  | nil => simp [List.dropWhile, hz]
  | cons d rest ih =>
    have hd := isDigit_digitChar d (hds d (List.mem_cons_self _ _))
    simp only [List.map_cons, List.cons_append, List.dropWhile, hd]
    exact ih (fun x hx => hds x (List.mem_cons_of_mem _ hx))

theorem zoneText_head (ts : Timestamp) :
    ∃ z zs, ts.zoneText = z :: zs ∧ time.isDigit z = false ∧ z ≠ '.' ∧ z ≠ ',' := by
  unfold Timestamp.zoneText Timestamp.zoneTextWith
  cases ts.zone with
  | none => exact ⟨'Z', [], rfl, by decide, by decide, by decide⟩
  | some z =>
    obtain ⟨negative, hh, mm⟩ := z
    cases negative
    · exact ⟨'+', _, rfl, by decide, by decide, by decide⟩
    · exact ⟨'-', _, rfl, by decide, by decide, by decide⟩

theorem skipFraction_text (ts : Timestamp) (hfrac : ∀ d ∈ ts.fraction, d < 10) :
    time.skipFraction (ts.fractionText ++ ts.zoneText) = ts.zoneText := by
  obtain ⟨z, zs, hz, hzd, hz1, hz2⟩ := zoneText_head ts
  rw [hz]
  unfold Timestamp.fractionText
  cases hf : ts.fraction with
  | nil =>
    simp only [List.nil_append]
    cases zs with
    | nil => rfl
    | cons y ys => simp [time.skipFraction, hz1, hz2]
  | cons d ds =>
    rw [hf] at hfrac
    have hd := isDigit_digitChar d (hfrac d (List.mem_cons_self _ _))
    simp only [List.cons_append, time.skipFraction, hd, true_or, and_self, if_true]
    exact dropWhile_isDigit_digits ds (fun x hx => hfrac x (List.mem_cons_of_mem _ hx)) z zs hzd

theorem getzone_text (ts : Timestamp) (hzone : ∀ z, ts.zone = some z → z.2.1 < 24 ∧ z.2.2 < 60) :
    time.getzone ts.zoneText = some (ts.offset, []) := by
  unfold Timestamp.zoneText Timestamp.zoneTextWith Timestamp.offset
  cases hz : ts.zone with
  | none => rfl
  | some z =>
    obtain ⟨negative, hh, mm⟩ := z
    have hr := hzone _ hz
    simp only [] at hr
    have h1 := getnum_digits2 hh (by omega) [] true
    have h2 := getnum_digits2 mm (by omega) [] true
    simp only [digits2, List.cons_append, List.nil_append] at h1 h2
    cases negative
    · simp only [digits2, List.cons_append, List.nil_append, time.getzone, h1, h2]
      simp
      rw [h1, h2]
      simp
      omega
    · simp only [digits2, List.cons_append, List.nil_append, time.getzone, h1, h2]
      simp
      rw [h1, h2]
      simp
      omega

theorem daysBeforeYear_closed (year : Nat) :
    civil.daysBeforeYear year + (year + 99) / 100
      = 365 * year + (year + 3) / 4 + (year + 399) / 400 := by
  induction year with
  | zero => rfl
  | succ y ih =>
    simp only [civil.daysBeforeYear, civil.yearLength, time.isLeap, Bool.and_eq_true,
      Bool.or_eq_true, decide_eq_true_eq, bne_iff_ne, ne_eq]
    split <;> omega

theorem daysBeforeYear_1970 : civil.daysBeforeYear 1970 = 719528 := by
  have h := daysBeforeYear_closed 1970
  omega

theorem daysBeforeMonth_closed (year month : Nat) (h1 : 1 ≤ month) (h12 : month ≤ 12) :
    civil.daysBeforeMonth year month
      = time.daysBefore month + (if 2 < month ∧ time.isLeap year = true then 1 else 0) := by
  interval_cases month <;>
    cases hl : time.isLeap year <;>
    simp [civil.daysBeforeMonth, time.daysBefore, time.daysIn, hl]

theorem daysSinceEpoch_eq (year month day : Nat) (h1 : 1 ≤ month) (h12 : month ≤ 12)
    (hd : 1 ≤ day) :
    time.daysSinceEpoch year month day
      = ((civil.daysBeforeYear year + civil.daysBeforeMonth year month + (day - 1) : Nat) : Int)
        - ((civil.daysBeforeYear 1970 : Nat) : Int) := by
  have hy := daysBeforeYear_closed year
  have hm := daysBeforeMonth_closed year month h1 h12
  rw [daysBeforeYear_1970, hm]
  unfold time.daysSinceEpoch
  push_cast
  omega

theorem getdate_text (ts : Timestamp) (hv : ts.rfc3339) :
    time.getdate ts.text = some (ts.year, ts.month, ts.day,
      'T' :: (digits2 ts.hour ++ ':' :: (digits2 ts.minute ++ ':' :: (digits2 ts.second ++
        (ts.fractionText ++ ts.zoneText))))) := by
  obtain ⟨hy, hm1, hm12, hd1, hdm, hh, hmi, hs, hfrac, hzone⟩ := hv
  have hd100 : ts.day < 100 := by
    have : time.daysIn ts.month ts.year ≤ 31 := by
      unfold time.daysIn
      split
      · split <;> omega
      · split <;> omega
    omega
  show time.getdate (ts.textWith 'T' 'Z') = _
  simp only [time.getdate, Timestamp.textWith, getyear_digits4 _ hy, skip_cons,
    getnum_digits2 _ (by omega : ts.month < 100), getnum_digits2 _ hd100]
  simp
  exact ⟨by omega, rfl⟩

theorem parseRFC3339Chars_text (ts : Timestamp) (hv : ts.rfc3339) (hsec : ts.second < 60) :
    time.parseRFC3339Chars ts.text = some ts.unix := by
  have hdate := getdate_text ts hv
  obtain ⟨hy, hm1, hm12, hd1, hdm, hh, hmi, hs, hfrac, hzone⟩ := hv
  have hclock : time.getclock ('T' :: (digits2 ts.hour ++ ':' :: (digits2 ts.minute ++ ':' ::
      (digits2 ts.second ++ (ts.fractionText ++ ts.zoneText)))))
      = some (ts.hour, ts.minute, ts.second, ts.zoneText) := by
    simp only [time.getclock, skip_cons, getnum_digits2 _ (by omega : ts.hour < 100),
      getnum_digits2 _ (by omega : ts.minute < 100),
      getnum_digits2 _ (by omega : ts.second < 100), skipFraction_text ts hfrac]
    simp
    omega
  simp only [time.parseRFC3339Chars, hdate, hclock, getzone_text ts hzone]
  have hday : ¬ (ts.day < 1 ∨ time.daysIn ts.month ts.year < ts.day) := by omega
  simp only [ne_eq, not_true_eq_false, if_false, hday]
  rw [daysSinceEpoch_eq ts.year ts.month ts.day hm1 hm12 hd1]
  rfl

theorem parseRFC3339Chars_leapSecond (ts : Timestamp) (hv : ts.rfc3339) (hsec : ts.second = 60) :
    time.parseRFC3339Chars ts.text = none := by
  have hdate := getdate_text ts hv
  obtain ⟨hy, hm1, hm12, hd1, hdm, hh, hmi, hs, hfrac, hzone⟩ := hv
  have hclock : time.getclock ('T' :: (digits2 ts.hour ++ ':' :: (digits2 ts.minute ++ ':' ::
      (digits2 ts.second ++ (ts.fractionText ++ ts.zoneText))))) = none := by
    simp only [time.getclock, skip_cons, getnum_digits2 _ (by omega : ts.hour < 100),
      getnum_digits2 _ (by omega : ts.minute < 100),
      getnum_digits2 _ (by omega : ts.second < 100), skipFraction_text ts hfrac]
    simp
    omega
  simp only [time.parseRFC3339Chars, hdate, hclock]

theorem textWith_length (ts : Timestamp) (t z : Char) : 20 ≤ (ts.textWith t z).length := by
  have hz : 1 ≤ (ts.zoneTextWith z).length := by
    unfold Timestamp.zoneTextWith
    split <;> simp
  simp only [Timestamp.textWith, digits4, digits2, List.length_append, List.length_cons,
    List.length_nil]
  omega

/-- C11, amended: when the trimmed text is a valid RFC 3339 timestamp written with the
upper-case letters T and Z (date, the letter T, time with an optional fraction, and the letter
Z or a numeric offset) and its second is below 60, `transformString` returns, instead of a
string, the integer number of whole seconds from 1970-01-01T00:00:00Z to the instant denoted,
the offset applied and the fraction left out.  When the second is 60, the leap second that
RFC 3339 allows, `time.Parse` rejects the text and `transformString` returns the trimmed text
as a string.  More generally it returns the integer that the library gives for the trimmed
text whenever the parse succeeds. -/
theorem transformString_timestamp (s : String) (ts : Timestamp) (hvalid : ts.rfc3339)
    (htext : (strings.TrimSpace s).data = ts.text) :
    (ts.second < 60 → transformString goLib s = .ok (Any.int64 ts.unix)) ∧
      (ts.second = 60 → transformString goLib s = .ok (Any.string (strings.TrimSpace s))) ∧
      (∀ (lib : GoLib) (n : Int), lib.parseRFC3339 (strings.TrimSpace s) = some n →
        transformString lib s = .ok (Any.int64 n)) := by
  have hne : strings.TrimSpace s ≠ "" := by
    intro h
    rw [h] at htext
    have hl := textWith_length ts 'T' 'Z'
    have h0 : (ts.textWith 'T' 'Z').length = 0 := by
      show ts.text.length = 0
      rw [← htext]
      rfl
    omega
  refine ⟨?_, ?_, ?_⟩
  · intro hsec
    have hparse : goLib.parseRFC3339 (strings.TrimSpace s) = some ts.unix := by
      show time.parseRFC3339Chars (strings.TrimSpace s).data = some ts.unix
      rw [htext]
      exact parseRFC3339Chars_text ts hvalid hsec
    simp [transformString, hne, hparse]
  · intro hsec
    have hparse : goLib.parseRFC3339 (strings.TrimSpace s) = none := by
      show time.parseRFC3339Chars (strings.TrimSpace s).data = none
      rw [htext]
      exact parseRFC3339Chars_leapSecond ts hvalid hsec
    simp [transformString, hne, hparse]
  · intro lib n hn
    simp [transformString, hne, hn]

/-- Witness of C11 as amended: the text "2023-01-15T10:00:00Z", padded with white space,
gives the integer 1673776800; the text "2016-12-31T23:59:60Z" comes back as a string. -/
theorem transformString_timestamp_witness :
    (Timestamp.mk 2023 1 15 10 0 0 [] none).rfc3339 ∧
      (strings.TrimSpace " 2023-01-15T10:00:00Z\n").data
        = (Timestamp.mk 2023 1 15 10 0 0 [] none).text ∧
      transformString goLib " 2023-01-15T10:00:00Z\n"
        = .ok (Any.int64 (Timestamp.mk 2023 1 15 10 0 0 [] none).unix) ∧
      (Timestamp.mk 2023 1 15 10 0 0 [] none).unix = 1673776800 ∧
      transformString goLib "2023-01-15T10:00:00Z" = .ok (Any.int64 1673776800) ∧
      transformString goLib "1969-12-31T23:59:59.5-01:30" = .ok (Any.int64 5399) ∧
      (Timestamp.mk 2016 12 31 23 59 60 [] none).rfc3339 ∧
      transformString goLib " 2016-12-31T23:59:60Z"
        = .ok (Any.string (strings.TrimSpace " 2016-12-31T23:59:60Z")) := by
  have hv : (Timestamp.mk 2023 1 15 10 0 0 [] none).rfc3339 := by
    simp [Timestamp.rfc3339, time.daysIn]
  have ht : (strings.TrimSpace " 2023-01-15T10:00:00Z\n").data
      = (Timestamp.mk 2023 1 15 10 0 0 [] none).text := by decide
  have hu : (Timestamp.mk 2023 1 15 10 0 0 [] none).unix = 1673776800 := by
    have h := daysBeforeYear_closed 2023
    simp only [Timestamp.unix, Timestamp.offset, daysBeforeYear_1970]
    rw [daysBeforeMonth_closed 2023 1 (by omega) (by omega)]
    simp only [time.daysBefore]
    norm_num
    omega
  have hv2 : (Timestamp.mk 2016 12 31 23 59 60 [] none).rfc3339 := by
    simp [Timestamp.rfc3339, time.daysIn]
  have ht2 : (strings.TrimSpace " 2016-12-31T23:59:60Z").data
      = (Timestamp.mk 2016 12 31 23 59 60 [] none).text := by decide
  exact ⟨hv, ht, (transformString_timestamp " 2023-01-15T10:00:00Z\n" _ hv ht).1 (by decide),
    hu, rfl, rfl, hv2, (transformString_timestamp " 2016-12-31T23:59:60Z" _ hv2 ht2).2.1 rfl⟩

/-- Counterexample to C11 as stated: "1990-12-31T23:59:60Z", the leap second at the end of
1990, is a valid RFC 3339 timestamp, but `transformString` returns it as a string and not as
an integer. -/
theorem transformString_leap_second_stays_text :
    isRFC3339 "1990-12-31T23:59:60Z".data ∧
      strings.TrimSpace "1990-12-31T23:59:60Z" = "1990-12-31T23:59:60Z" ∧
      transformString goLib "1990-12-31T23:59:60Z"
        = .ok (Any.string "1990-12-31T23:59:60Z") ∧
      ∀ n : Int, transformString goLib "1990-12-31T23:59:60Z" ≠ .ok (Any.int64 n) := by
  have hrun : transformString goLib "1990-12-31T23:59:60Z"
      = .ok (Any.string "1990-12-31T23:59:60Z") := rfl
  refine ⟨⟨Timestamp.mk 1990 12 31 23 59 60 [] none, 'T', 'Z', ?_, Or.inl rfl, Or.inl rfl, ?_⟩,
    by decide, hrun, ?_⟩
  · simp [Timestamp.rfc3339, time.daysIn]
  · decide
  · intro n h
    rw [hrun] at h
    simp at h

/-- Counterexample to C10 as stated: "2023-01-15T1:00:00Z" is not white space only and is not
a valid RFC 3339 timestamp (its hour has one digit), but `time.Parse` accepts it and
`transformString` returns the integer 1673744400 and not the trimmed text. -/
theorem transformString_one_digit_hour :
    allSpace "2023-01-15T1:00:00Z".data = false ∧
      ¬ isRFC3339 (strings.TrimSpace "2023-01-15T1:00:00Z").data ∧
      transformString goLib "2023-01-15T1:00:00Z" = .ok (Any.int64 1673744400) ∧
      transformString goLib "2023-01-15T1:00:00Z"
        ≠ .ok (Any.string (strings.TrimSpace "2023-01-15T1:00:00Z")) := by
  have hrun : transformString goLib "2023-01-15T1:00:00Z" = .ok (Any.int64 1673744400) := rfl
  refine ⟨by decide, ?_, hrun, ?_⟩
  · rintro ⟨ts, t, z, -, -, -, h⟩
    have hl := textWith_length ts t z
    rw [← h] at hl
    exact absurd hl (by decide)
  · rw [hrun]
    simp

/-! ## Lemmas on the parser of numbers -/

theorem bitLen_zero (fuel : Nat) : strconv.bitLen fuel 0 = 0 := by
  cases fuel <;> simp [strconv.bitLen]

theorem bitLen_bounds (fuel : Nat) : ∀ n : Nat, n ≤ fuel → 0 < n →
    1 ≤ strconv.bitLen fuel n ∧ 2 ^ (strconv.bitLen fuel n - 1) ≤ n ∧
      n < 2 ^ strconv.bitLen fuel n := by
  induction fuel with
  | zero => intro n h1 h2; omega
  | succ fuel ih =>
    intro n hle hpos
    have hn0 : n ≠ 0 := by omega
    simp only [strconv.bitLen, hn0, if_false]
    by_cases hhalf : n / 2 = 0
    · have hn1 : n = 1 := by omega
      rw [hhalf, bitLen_zero]
      subst hn1
      simp
    · obtain ⟨hk1, hk2, hk3⟩ := ih (n / 2) (by omega) (by omega)
      generalize strconv.bitLen fuel (n / 2) = k at hk1 hk2 hk3
      obtain ⟨j, rfl⟩ : ∃ j, k = j + 1 := ⟨k - 1, by omega⟩
      simp only [Nat.add_sub_cancel] at hk2 ⊢
      rw [pow_succ] at hk3 ⊢
      rw [pow_succ]
      refine ⟨by omega, by omega, by omega⟩

theorem roundBinary64_integer (n : Nat) (hpos : 0 < n) (hlt : n < 2 ^ 53) :
    ∃ (m : Nat) (k : Nat), k ≤ 52 ∧ strconv.roundBinary64 n 1 = some (m, -(k : Int)) ∧
      m = n * 2 ^ k := by
  obtain ⟨hb1, hb2, hb3⟩ := bitLen_bounds n n (le_refl n) hpos
  generalize hb : strconv.bitLen n n = b at hb1 hb2 hb3
  have hb53 : b ≤ 53 := by
    by_contra hgt
    have : 2 ^ 53 ≤ 2 ^ (b - 1) := Nat.pow_le_pow_right (by omega) (by omega)
    omega
  have hone : strconv.bitLen 1 1 = 1 := by decide
  refine ⟨n * 2 ^ (53 - b), 53 - b, by omega, ?_, rfl⟩
  have hn0 : n ≠ 0 := by omega
  unfold strconv.roundBinary64
  simp only [hn0, if_false, hb, hone]
  have hl0 : ((b : Int) - ((1 : Nat) : Int)).toNat = b - 1 := by omega
  have hl0n : (-((b : Int) - ((1 : Nat) : Int))).toNat = 0 := by omega
  simp only [hl0, hl0n, pow_zero, mul_one, one_mul, hb2, if_true]
  have he : max ((b : Int) - ((1 : Nat) : Int) - 52) (-1074) = (b : Int) - 53 := by omega
  simp only [he]
  have he1 : (-((b : Int) - 53)).toNat = 53 - b := by omega
  have he2 : ((b : Int) - 53).toNat = 0 := by omega
  simp only [he1, he2, pow_zero, Nat.div_one, Nat.mod_one]
  have hlt2 : n * 2 ^ (53 - b) < 2 ^ 53 := by
    calc n * 2 ^ (53 - b) < 2 ^ b * 2 ^ (53 - b) :=
          Nat.mul_lt_mul_of_pos_right hb3 (Nat.pow_pos (by omega))
      _ = 2 ^ 53 := by rw [← pow_add]; congr 1; omega
  have hne : ¬ (n * 2 ^ (53 - b) = 9007199254740992) := by
    norm_num at hlt2
    omega
  have h01 : 2 * 0 < 1 := by omega
  have h971 : ¬ (971 < (b : Int) - 53) := by omega
  simp only [Nat.reducePow, h01, if_true, hne, if_false, h971]
  congr 2
  omega

theorem isDigit_cases (c : Char) (h : time.isDigit c = true) : c ∈ "0123456789".data := by
  have h0 : ('0'.toNat : Nat) = 48 := rfl
  have h9 : ('9'.toNat : Nat) = 57 := rfl
  simp only [time.isDigit, h0, h9, decide_eq_true_eq] at h
  rw [← Char.ofNat_toNat c]
  generalize c.toNat = k at h
  obtain ⟨h1, h2⟩ := h
  interval_cases k <;> decide

theorem isDigit_head_facts (c : Char) (h : time.isDigit c = true) :
    c ≠ '+' ∧ c ≠ '-' ∧ c ≠ '_' ∧ c ≠ '.' ∧ strconv.lower c ≠ 'x' ∧
      strconv.foldAscii c ≠ 'i' ∧ strconv.foldAscii c ≠ 'n' := by
  have hall : ∀ d ∈ "0123456789".data,
      d ≠ '+' ∧ d ≠ '-' ∧ d ≠ '_' ∧ d ≠ '.' ∧ strconv.lower d ≠ 'x' ∧
        strconv.foldAscii d ≠ 'i' ∧ strconv.foldAscii d ≠ 'n' := by decide
  exact hall c (isDigit_cases c h)

theorem equalFold_head_ne (c a : Char) (cs rest : List Char) (word : String)
    (hw : word.data = a :: rest) (h : strconv.foldAscii c ≠ a) :
    strconv.equalFold (c :: cs) word = false := by
  unfold strconv.equalFold
  rw [hw]
  cases hb : (List.map strconv.foldAscii (c :: cs) == a :: rest) with
  | false => rfl
  | true =>
    have heq := eq_of_beq hb
    simp only [List.map_cons, List.cons.injEq] at heq
    exact absurd heq.1 h

theorem special_digits (c : Char) (cs : List Char) (h : time.isDigit c = true) :
    strconv.special (c :: cs) = none := by
  obtain ⟨h1, h2, _, _, _, hi, hn⟩ := isDigit_head_facts c h
  have e1 := equalFold_head_ne c 'i' cs _ "inf" rfl hi
  have e2 := equalFold_head_ne c 'i' cs _ "infinity" rfl hi
  have e3 := equalFold_head_ne c 'n' cs _ "nan" rfl hn
  unfold strconv.special
  simp only []
  split
  · rename_i heq
    exact absurd heq (by simp)
  · rename_i heq
    injection heq with heq _
    exact absurd heq h1
  · rename_i heq
    injection heq with heq _
    exact absurd heq h2
  · simp [e1, e2, e3]

theorem readMantissa_digits (ds : List Char) (hds : ∀ c ∈ ds, time.isDigit c = true) :
    ∀ st : strconv.Scan, st.sawdot = false → st.underscores = false →
      (st.nd = 0 → st.mantissa = 0) →
      (strconv.readMantissa false ds st).2 = [] ∧
        (strconv.readMantissa false ds st).1.mantissa
          = ds.foldl (fun acc c => acc * 10 + time.digit c) st.mantissa ∧
        (strconv.readMantissa false ds st).1.sawdot = false ∧
        (strconv.readMantissa false ds st).1.underscores = false ∧
        (ds ≠ [] → (strconv.readMantissa false ds st).1.sawdigits = true) ∧
        (st.sawdigits = true → (strconv.readMantissa false ds st).1.sawdigits = true) := by
  induction ds with
  | nil =>
    intro st h1 h2 _
    simp [strconv.readMantissa, h1, h2]
  | cons c cs ih =>
    intro st h1 h2 h3
    have hc := hds c (List.mem_cons_self _ _)
    obtain ⟨_, _, hu, hp, _, _, _⟩ := isDigit_head_facts c hc
    have hcs : ∀ d ∈ cs, time.isDigit d = true := fun d hd => hds d (List.mem_cons_of_mem _ hd)
    simp only [strconv.readMantissa, hu, hp, if_false, hc, if_true, List.foldl_cons]
    by_cases hz : c = '0' ∧ st.nd = 0
    · rw [if_pos hz]
      have hm := h3 hz.2
      obtain ⟨r1, r2, r3, r4, _, r6⟩ := ih hcs
        { st with sawdigits := true, dp := st.dp - 1 } h1 h2 h3
      refine ⟨r1, ?_, r3, r4, fun _ => r6 rfl, fun _ => r6 rfl⟩
      rw [r2, hm, hz.1]
      have : time.digit '0' = 0 := rfl
      simp [this]
    · rw [if_neg hz]
      obtain ⟨r1, r2, r3, r4, _, r6⟩ := ih hcs
        { st with sawdigits := true, nd := st.nd + 1,
                  mantissa := st.mantissa * (if false = true then 16 else 10) + time.digit c }
        h1 h2 (fun h => by simp at h)
      refine ⟨r1, ?_, r3, r4, fun _ => r6 rfl, fun _ => r6 rfl⟩
      rw [r2]
      simp

theorem readSign_digits (c : Char) (cs : List Char) (h : time.isDigit c = true) :
    strconv.readSign (c :: cs) = (false, c :: cs) := by
  obtain ⟨h1, h2, _⟩ := isDigit_head_facts c h
  unfold strconv.readSign
  split
  · rename_i heq
    injection heq with heq _
    exact absurd heq h1
  · rename_i heq
    injection heq with heq _
    exact absurd heq h2
  · rfl

theorem readBase_digits (ds : List Char) (hds : ∀ c ∈ ds, time.isDigit c = true) :
    strconv.readBase ds = (false, ds) := by
  unfold strconv.readBase
  split
  · rename_i x d rest
    have hx := (isDigit_head_facts x (hds x (by simp))).2.2.2.2.1
    simp [hx]
  · rfl

theorem readFloat_digits (ds : List Char) (hne : ds ≠ [])
    (hds : ∀ c ∈ ds, time.isDigit c = true) :
    strconv.readFloat ds = some (false, decimalValue ds, 1) := by
  obtain ⟨r1, r2, r3, r4, r5, _⟩ := readMantissa_digits ds hds ⟨0, 0, 0, false, false, false⟩
    rfl rfl (fun _ => rfl)
  have hsigned : strconv.readSign ds = (false, ds) := by
    cases ds with
    | nil => exact absurd rfl hne
    | cons c cs => exact readSign_digits c cs (hds c (List.mem_cons_self _ _))
  unfold strconv.readFloat
  simp only [hne, if_false, hsigned, readBase_digits ds hds]
  generalize strconv.readMantissa false ds ⟨0, 0, 0, false, false, false⟩ = r at r1 r2 r3 r4 r5
  obtain ⟨st, rest⟩ := r
  simp only [] at r1 r2 r3 r4 r5
  subst r1
  simp [r5 hne, r3, r4, strconv.readExponentPart, r2, decimalValue]

theorem parseFloatChars_digits (ds : List Char) (hne : ds ≠ [])
    (hds : ∀ c ∈ ds, time.isDigit c = true) (hlt : decimalValue ds < 2 ^ 53) :
    ∃ x, strconv.parseFloatChars ds = some x ∧ x.toRat = some (decimalValue ds : ℚ) := by
  have hsp : strconv.special ds = none := by
    cases ds with
    | nil => exact absurd rfl hne
    | cons c cs => exact special_digits c cs (hds c (List.mem_cons_self _ _))
  unfold strconv.parseFloatChars
  simp only [hsp, readFloat_digits ds hne hds]
  by_cases h0 : decimalValue ds = 0
  · refine ⟨Float64.finite false 0 (-1074), ?_, ?_⟩
    · simp [h0, strconv.roundBinary64]
    · simp [Float64.toRat, h0]
  · obtain ⟨m, k, _, hr, hm⟩ := roundBinary64_integer (decimalValue ds) (by omega) hlt
    refine ⟨Float64.finite false m (-(k : Int)), ?_, ?_⟩
    · simp [hr]
    · simp only [Float64.toRat, hm, Bool.false_eq_true, if_false, one_mul, Nat.cast_mul,
        Nat.cast_pow, Nat.cast_ofNat, zpow_neg, zpow_natCast]
      rw [mul_assoc, mul_inv_cancel₀ (by positivity), mul_one]

/-- C12: on a text made of optional white space around a non-empty run of decimal digits
whose value is below 2^53, `transformNumber` succeeds and returns the number equal to that
integer, leading zeros or not ("007" gives 7, as does "7.0"); "3.14" gives the binary64
nearest to 3.14; "abc" fails with `InvalidValueError` and its map entry is omitted. -/
theorem transformNumber_digits (s : String) (hne : (strings.TrimSpace s).data ≠ [])
    (hds : ∀ c ∈ (strings.TrimSpace s).data, time.isDigit c = true)
    (hlt : decimalValue (strings.TrimSpace s).data < 2 ^ 53) :
    (∃ x, transformNumber goLib s = .ok (Any.float64 x) ∧
        x.toRat = some (decimalValue (strings.TrimSpace s).data : ℚ)) ∧
      transformNumber goLib "007" = .ok (Any.float64 (Float64.finite false (7 * 2 ^ 50) (-50))) ∧
      (Float64.finite false (7 * 2 ^ 50) (-50)).toRat = some 7 ∧
      transformNumber goLib "7.0" = transformNumber goLib "007" ∧
      transformNumber goLib "3.14"
        = .ok (Any.float64 (Float64.finite false 7070651414971679 (-51))) ∧
      (∃ q, (Float64.finite false 7070651414971679 (-51)).toRat = some q ∧
        |q - 314 / 100| < 1 / 2 ^ 52) ∧
      transformNumber goLib "abc" = .error GoError.InvalidValueError ∧
      transformMap goLib [("k", Any.map [("N", Any.string "abc")])] = .ok [] := by
  refine ⟨?_, rfl, ?_, rfl, rfl, ?_, rfl, rfl⟩
  · obtain ⟨x, hx, hv⟩ := parseFloatChars_digits _ hne hds hlt
    refine ⟨x, ?_, hv⟩
    have hp : goLib.parseFloat (strings.TrimSpace s) = some x := hx
    simp [transformNumber, hp]
  · simp only [Float64.toRat, Bool.false_eq_true, if_false, one_mul]
    norm_num
  · refine ⟨(7070651414971679 : ℚ) * (2 : ℚ) ^ (-51 : Int), ?_, ?_⟩
    · simp [Float64.toRat]
    · rw [abs_lt]
      constructor <;> norm_num

/-- Witness of C12: the text " 007 ". -/
theorem transformNumber_digits_witness :
    (strings.TrimSpace " 007 ").data ≠ [] ∧
      (∀ c ∈ (strings.TrimSpace " 007 ").data, time.isDigit c = true) ∧
      decimalValue (strings.TrimSpace " 007 ").data < 2 ^ 53 ∧
      decimalValue (strings.TrimSpace " 007 ").data = 7 ∧
      ∃ x, transformNumber goLib " 007 " = .ok (Any.float64 x) ∧
        x.toRat = some (decimalValue (strings.TrimSpace " 007 ").data : ℚ) :=
  ⟨by decide, by decide, by decide, by decide,
    (transformNumber_digits " 007 " (by decide) (by decide) (by decide)).1⟩

theorem outputProperty_notPlainTimestamp : OutputProperty goLib Any.notPlainTimestamp where
  string := fun s v h => by
    have hc := (outputProperty_cleanString goLib).string s v h
    cases v with
    | string t =>
      intro ts hts hsec heq
      have hp : time.parseRFC3339Chars t.data = none := hc.2.2.2
      rw [heq, parseRFC3339Chars_text ts hts hsec] at hp
      exact absurd hp (by simp)
    | _ => trivial
  number := fun s v h => by
    have := transformNumber_isScalar goLib s v h
    unfold transformNumber at h
    simp only [] at h
    split at h
    · injection h with h; subst h; trivial
    · exact absurd h (by simp)
  bool := fun s v h => by
    unfold transformBool at h
    simp only [] at h
    split at h
    · injection h with h; subst h; trivial
    · split at h
      · injection h with h; subst h; trivial
      · exact absurd h (by simp)
  null := fun s v h => by
    unfold transformNull at h
    simp only [] at h
    split at h
    · injection h with h; subst h; trivial
    · exact absurd h (by simp)
  inert := trivial
  slice := fun _ _ => trivial
  map := fun _ _ => trivial

/-- C20, amended: every string value anywhere in the output of `transformMap` is not empty,
neither starts nor ends with white space, and is not a text that `time.Parse` with the layout
`time.RFC3339` accepts; with the library `goLib` it is not the text of any valid RFC 3339
timestamp that is written with the upper-case letters T and Z and whose second is below 60. -/
theorem output_strings_are_clean :
    (∀ (lib : GoLib) (doc : GoMap), ∃ out, transformMap lib doc = .ok out ∧
      Any.Forall (Any.cleanString lib) (Any.map out)) ∧
    (∀ doc : GoMap, ∃ out, transformMap goLib doc = .ok out ∧
      Any.Forall Any.notPlainTimestamp (Any.map out)) ∧
    transformMap goLib [("a", Any.map [("S", Any.string "  x y  ")]),
        ("b", Any.map [("S", Any.string " \t ")]),
        ("c", Any.map [("L", Any.slice [Any.map [("S", Any.string "2023-01-15T10:00:00Z")],
          Any.map [("S", Any.string " z ")]])])]
      = .ok [("a", Any.string "x y"), ("c", Any.slice [Any.int64 1673776800, Any.string "z"])] :=
  ⟨fun lib doc => ⟨transformMapLoop lib doc [], rfl,
      transformMap_forall lib _ (outputProperty_cleanString lib) doc⟩,
    fun doc => ⟨transformMapLoop goLib doc [], rfl,
      transformMap_forall goLib _ outputProperty_notPlainTimestamp doc⟩,
    rfl⟩

/-- Counterexample to C20 as stated: the `S` payload "1990-12-31T23:59:60Z" is a valid RFC 3339
timestamp (the leap second at the end of 1990) that `time.Parse` rejects, so the output of
`transformMap` holds it as a string value. -/
theorem transformMap_keeps_leap_second_text :
    transformMap goLib [("k", Any.map [("S", Any.string " 1990-12-31T23:59:60Z ")])]
      = .ok [("k", Any.string "1990-12-31T23:59:60Z")] ∧
    isRFC3339 "1990-12-31T23:59:60Z".data ∧
    ¬ Any.Forall Any.notRFC3339 (Any.map [("k", Any.string "1990-12-31T23:59:60Z")]) := by
  have hrfc : isRFC3339 "1990-12-31T23:59:60Z".data :=
    ⟨Timestamp.mk 1990 12 31 23 59 60 [] none, 'T', 'Z',
      by simp [Timestamp.rfc3339, time.daysIn], Or.inl rfl, Or.inl rfl, by decide⟩
  refine ⟨rfl, hrfc, ?_⟩
  intro h
  simp only [Any.Forall, Any.ForallEntries, Any.notRFC3339] at h
  exact h.2.1 hrfc

/-! ## Lemmas on the order of entries -/

mutual
theorem sameContents_refl : ∀ a : Any, Any.sameContents a a
  | .slice items => ⟨items, rfl, sameItems_refl items⟩
  | .map entries => ⟨entries, rfl, sameEntries_refl entries⟩
  | .nil => rfl
  | .bool _ => rfl
  | .float64 _ => rfl
  | .int64 _ => rfl
  | .string _ => rfl

theorem sameItems_refl : ∀ items : List Any, Any.sameItems items items
  | [] => rfl
  | item :: rest => ⟨item, rest, rfl, sameContents_refl item, sameItems_refl rest⟩

theorem sameEntries_refl : ∀ entries : List (String × Any), Any.sameEntries entries entries
  | [] => rfl
  | (_, value) :: rest =>
    ⟨value, rest, List.Perm.refl _, sameContents_refl value, sameEntries_refl rest⟩
end

theorem sameResult_refl (r : Except GoError Any) : sameResult r r := by
  cases r with
  | ok a => exact sameContents_refl a
  | error e => trivial

theorem sameEntries_perm_right (es gs hs : List (String × Any)) (h : Any.sameEntries es gs)
    (hp : gs.Perm hs) : Any.sameEntries es hs := by
  cases es with
  | nil =>
    simp only [Any.sameEntries] at h ⊢
    subst h
    exact hp.symm.eq_nil
  | cons e rest =>
    obtain ⟨k, v⟩ := e
    obtain ⟨w, fs2, hperm, hvw, hrest⟩ := h
    exact ⟨w, fs2, hp.symm.trans hperm, hvw, hrest⟩

theorem sameContents_nil_left (v : Any) (h : Any.sameContents v Any.nil) : v = Any.nil := by
  cases v with
  | nil => rfl
  | slice items => obtain ⟨_, h, _⟩ := h; exact absurd h (by simp)
  | map entries => obtain ⟨_, h, _⟩ := h; exact absurd h (by simp)
  | bool _ => exact absurd h (by simp [Any.sameContents])
  | float64 _ => exact absurd h (by simp [Any.sameContents])
  | int64 _ => exact absurd h (by simp [Any.sameContents])
  | string _ => exact absurd h (by simp [Any.sameContents])

theorem entryDecides_sameContents (k : String) (v w : Any) (h : Any.sameContents v w) :
    entryDecides (k, w) = entryDecides (k, v) := by
  cases v with
  | slice items => obtain ⟨_, h, _⟩ := h; subst h; simp [entryDecides]
  | map entries => obtain ⟨_, h, _⟩ := h; subst h; simp [entryDecides]
  | nil => simp only [Any.sameContents] at h; subst h; rfl
  | bool _ => simp only [Any.sameContents] at h; subst h; rfl
  | float64 _ => simp only [Any.sameContents] at h; subst h; rfl
  | int64 _ => simp only [Any.sameContents] at h; subst h; rfl
  | string _ => simp only [Any.sameContents] at h; subst h; rfl

theorem wireValues_iff (doc : List (String × Any)) :
    Any.wireValues doc = true ↔ ∀ e ∈ doc, Any.wireNode e.2 = true := by
  induction doc with
  | nil => simp [Any.wireValues]
  | cons e rest ih =>
    obtain ⟨k, v⟩ := e
    simp only [Any.wireValues, Bool.and_eq_true, ih, List.mem_cons, forall_eq_or_imp]

theorem wirePayloads_iff (node : List (String × Any)) :
    Any.wirePayloads node = true ↔ ∀ e ∈ node, Any.wirePayload e.2 = true := by
  induction node with
  | nil => simp [Any.wirePayloads]
  | cons e rest ih =>
    obtain ⟨k, v⟩ := e
    simp only [Any.wirePayloads, Bool.and_eq_true, ih, List.mem_cons, forall_eq_or_imp]

theorem wireNodes_iff (items : List Any) :
    Any.wireNodes items = true ↔ ∀ x ∈ items, Any.wireNode x = true := by
  induction items with
  | nil => simp [Any.wireNodes]
  | cons e rest ih =>
    simp only [Any.wireNodes, Bool.and_eq_true, ih, List.mem_cons, forall_eq_or_imp]

theorem find_perm_of_unique {α : Type} (p : α → Bool) (l l2 : List α) (hp : l.Perm l2)
    (hu : (l.filter p).length ≤ 1) : l.find? p = l2.find? p := by
  have hf : (l.filter p).Perm (l2.filter p) := hp.filter p
  have heq : l.filter p = l2.filter p := by
    cases h1 : l.filter p with
    | nil =>
      rw [h1] at hf
      exact (hf.symm.eq_nil).symm
    | cons a rest =>
      rw [h1] at hf hu
      have hrest : rest = [] := by
        cases rest with
        | nil => rfl
        | cons b r => simp at hu
      subst hrest
      exact (List.perm_singleton.mp hf.symm).symm
  rw [← List.filter_head?, ← List.filter_head?, heq]

theorem transformValue_perm (lib : GoLib) (node node2 : GoMap) (hp : node.Perm node2)
    (hu : (node.filter entryDecides).length ≤ 1) :
    transformValue lib node = transformValue lib node2 := by
  rw [transformValue_eq_find, transformValue_eq_find,
    find_perm_of_unique entryDecides node node2 hp hu]

theorem filter_length_cons_le {α : Type} (p : α → Bool) (a : α) (l : List α)
    (h : ((a :: l).filter p).length ≤ 1) : (l.filter p).length ≤ 1 := by
  by_cases hp : p a = true
  · have hc : (a :: l).filter p = a :: l.filter p := by simp [List.filter_cons, hp]
    rw [hc, List.length_cons] at h
    omega
  · have hc : (a :: l).filter p = l.filter p := by simp [List.filter_cons, hp]
    rw [hc] at h
    exact h

theorem transformMapLoop_nodup (lib : GoLib) (doc : GoMap) (h : (MapKeys doc).Nodup) :
    transformMapLoop lib doc [] = doc.filterMap (mapEntryResult lib) := by
  rw [transformMapLoop_eq_filterMap lib doc [] (by simpa [MapKeys] using h)]
  simp

mutual
theorem sameEntries_filterMap (lib : GoLib) :
    ∀ (es fs : List (String × Any)), Any.sameEntries es fs →
      (∀ e ∈ es, Any.wireNode e.2 = true) → (∀ e ∈ fs, Any.wireNode e.2 = true) →
      Any.sameEntries (es.filterMap (mapEntryResult lib)) (fs.filterMap (mapEntryResult lib))
  | [], fs, h, _, _ => by
    simp only [Any.sameEntries] at h
    subst h
    exact rfl
  | (k, v) :: es, fs, h, hes, hfs => by
    obtain ⟨w, fs2, hperm, hvw, hrest⟩ := h
    have hmem : ∀ e ∈ (k, w) :: fs2, Any.wireNode e.2 = true :=
      fun e he => hfs e (hperm.symm.subset he)
    have hfs2 : ∀ e ∈ fs2, Any.wireNode e.2 = true :=
      fun e he => hmem e (List.mem_cons_of_mem _ he)
    have hes2 : ∀ e ∈ es, Any.wireNode e.2 = true :=
      fun e he => hes e (List.mem_cons_of_mem _ he)
    have ih := sameEntries_filterMap lib es fs2 hrest hes2 hfs2
    have hpf : (fs.filterMap (mapEntryResult lib)).Perm
        (((k, w) :: fs2).filterMap (mapEntryResult lib)) := hperm.filterMap _
    have hnone : mapEntryResult lib (k, v) = none → mapEntryResult lib (k, w) = none →
        Any.sameEntries (((k, v) :: es).filterMap (mapEntryResult lib))
          (fs.filterMap (mapEntryResult lib)) := by
      intro h1 h2
      simp only [List.filterMap_cons, h1]
      simp only [List.filterMap_cons, h2] at hpf
      exact sameEntries_perm_right _ _ _ ih hpf.symm
    by_cases hk : k = ""
    · exact hnone (by simp [mapEntryResult, hk]) (by simp [mapEntryResult, hk])
    · cases v with
      | map node =>
        obtain ⟨node2, hw, hnodes⟩ := hvw
        subst hw
        have hwv := hes (k, Any.map node) (List.mem_cons_self _ _)
        have hww := hmem (k, Any.map node2) (List.mem_cons_self _ _)
        simp only [Any.wireNode, Bool.and_eq_true, decide_eq_true_eq] at hwv hww
        have hV := sameResult_transformValue lib node node2 hnodes hwv.1.2 hww.1.2
          ((wirePayloads_iff node).mp hwv.2) ((wirePayloads_iff node2).mp hww.2)
        cases hv1 : transformValue lib node with
        | error e1 =>
          cases hv2 : transformValue lib node2 with
          | error e2 =>
            exact hnone (by simp [mapEntryResult, hk, hv1]) (by simp [mapEntryResult, hk, hv2])
          | ok b => rw [hv1, hv2] at hV; exact absurd hV (by simp [sameResult])
        | ok a =>
          cases hv2 : transformValue lib node2 with
          | error e2 => rw [hv1, hv2] at hV; exact absurd hV (by simp [sameResult])
          | ok b =>
            rw [hv1, hv2] at hV
            have h1 : mapEntryResult lib (k, Any.map node) = some (k, a) := by
              simp [mapEntryResult, hk, hv1]
            have h2 : mapEntryResult lib (k, Any.map node2) = some (k, b) := by
              simp [mapEntryResult, hk, hv2]
            simp only [List.filterMap_cons, h1]
            simp only [List.filterMap_cons, h2] at hpf
            exact ⟨b, _, hpf, hV, ih⟩
      | slice items =>
        obtain ⟨items2, hw, _⟩ := hvw
        subst hw
        exact hnone (by simp [mapEntryResult, hk]) (by simp [mapEntryResult, hk])
      | nil =>
        simp only [Any.sameContents] at hvw; subst hvw
        exact hnone (by simp [mapEntryResult, hk]) (by simp [mapEntryResult, hk])
      | bool _ =>
        simp only [Any.sameContents] at hvw; subst hvw
        exact hnone (by simp [mapEntryResult, hk]) (by simp [mapEntryResult, hk])
      | float64 _ =>
        simp only [Any.sameContents] at hvw; subst hvw
        exact hnone (by simp [mapEntryResult, hk]) (by simp [mapEntryResult, hk])
      | int64 _ =>
        simp only [Any.sameContents] at hvw; subst hvw
        exact hnone (by simp [mapEntryResult, hk]) (by simp [mapEntryResult, hk])
      | string _ =>
        simp only [Any.sameContents] at hvw; subst hvw
        exact hnone (by simp [mapEntryResult, hk]) (by simp [mapEntryResult, hk])

theorem sameResult_transformValue (lib : GoLib) :
    ∀ (node node2 : List (String × Any)), Any.sameEntries node node2 →
      (node.filter entryDecides).length ≤ 1 → (node2.filter entryDecides).length ≤ 1 →
      (∀ e ∈ node, Any.wirePayload e.2 = true) → (∀ e ∈ node2, Any.wirePayload e.2 = true) →
      sameResult (transformValue lib node) (transformValue lib node2)
  | [], node2, h, _, _, _, _ => by
    simp only [Any.sameEntries] at h
    subst h
    exact sameResult_refl _
  | (k, v) :: es, node2, h, hu, hu2, hes, hfs => by
    obtain ⟨w, fs2, hperm, hvw, hrest⟩ := h
    have hmem : ∀ e ∈ (k, w) :: fs2, Any.wirePayload e.2 = true :=
      fun e he => hfs e (hperm.symm.subset he)
    have hu3 : (((k, w) :: fs2).filter entryDecides).length ≤ 1 := by
      rw [← (hperm.filter entryDecides).length_eq]
      exact hu2
    rw [transformValue_perm lib node2 _ hperm hu2, transformValue_cons, transformValue_cons,
      entryDecides_sameContents k v w hvw]
    by_cases hd : entryDecides (k, v) = true
    · simp only [hd, if_true]
      cases v with
      | map m =>
        obtain ⟨m2, hw, hm⟩ := hvw
        subst hw
        have hwv := hes (k, Any.map m) (List.mem_cons_self _ _)
        have hww := hmem (k, Any.map m2) (List.mem_cons_self _ _)
        simp only [Any.wirePayload, Bool.and_eq_true, decide_eq_true_eq] at hwv hww
        by_cases hM : k = "M"
        · have hD := sameEntries_filterMap lib m m2 hm ((wireValues_iff m).mp hwv.2)
            ((wireValues_iff m2).mp hww.2)
          simp only [applyRule, hM, if_true, transformMap, transformMapLoop_nodup lib m hwv.1,
            transformMapLoop_nodup lib m2 hww.1]
          exact ⟨_, rfl, hD⟩
        · by_cases hL : k = "L"
          · simp [applyRule, hL, transformList, sameResult]
          · simp [applyRule, hM, hL, sameResult, Any.sameContents]
      | slice items =>
        obtain ⟨items2, hw, hitems⟩ := hvw
        subst hw
        have hwv := hes (k, Any.slice items) (List.mem_cons_self _ _)
        have hww := hmem (k, Any.slice items2) (List.mem_cons_self _ _)
        simp only [Any.wirePayload] at hwv hww
        by_cases hL : k = "L"
        · have hLL := sameItems_filterMap lib items items2 hitems
            ((wireNodes_iff items).mp hwv) ((wireNodes_iff items2).mp hww)
          simp only [applyRule, hL, if_true, transformList, transformListLoop_eq_filterMap,
            List.nil_append]
          exact ⟨_, rfl, hLL⟩
        · simp [applyRule, hL, sameResult, Any.sameContents]
      | nil => simp only [Any.sameContents] at hvw; subst hvw; exact sameResult_refl _
      | bool _ => simp only [Any.sameContents] at hvw; subst hvw; exact sameResult_refl _
      | float64 _ => simp only [Any.sameContents] at hvw; subst hvw; exact sameResult_refl _
      | int64 _ => simp only [Any.sameContents] at hvw; subst hvw; exact sameResult_refl _
      | string _ => simp only [Any.sameContents] at hvw; subst hvw; exact sameResult_refl _
    · simp only [hd, Bool.false_eq_true, if_false]
      exact sameResult_transformValue lib es fs2 hrest (filter_length_cons_le _ _ _ hu)
        (filter_length_cons_le _ _ _ hu3) (fun e he => hes e (List.mem_cons_of_mem _ he))
        (fun e he => hmem e (List.mem_cons_of_mem _ he))

theorem sameItems_filterMap (lib : GoLib) :
    ∀ (xs ys : List Any), Any.sameItems xs ys →
      (∀ x ∈ xs, Any.wireNode x = true) → (∀ y ∈ ys, Any.wireNode y = true) →
      Any.sameItems (xs.filterMap (listItemResult lib)) (ys.filterMap (listItemResult lib))
  | [], ys, h, _, _ => by
    simp only [Any.sameItems] at h
    subst h
    exact rfl
  | x :: xs, ys, h, hxs, hys => by
    obtain ⟨y, ys2, hy, hxy, hrest⟩ := h
    subst hy
    have ih := sameItems_filterMap lib xs ys2 hrest
      (fun a ha => hxs a (List.mem_cons_of_mem _ ha))
      (fun a ha => hys a (List.mem_cons_of_mem _ ha))
    have hnone : listItemResult lib x = none → listItemResult lib y = none →
        Any.sameItems ((x :: xs).filterMap (listItemResult lib))
          ((y :: ys2).filterMap (listItemResult lib)) := by
      intro h1 h2
      simp only [List.filterMap_cons, h1, h2]
      exact ih
    cases x with
    | map node =>
      obtain ⟨node2, hw, hnodes⟩ := hxy
      subst hw
      have hwv := hxs (Any.map node) (List.mem_cons_self _ _)
      have hww := hys (Any.map node2) (List.mem_cons_self _ _)
      simp only [Any.wireNode, Bool.and_eq_true, decide_eq_true_eq] at hwv hww
      have hV := sameResult_transformValue lib node node2 hnodes hwv.1.2 hww.1.2
        ((wirePayloads_iff node).mp hwv.2) ((wirePayloads_iff node2).mp hww.2)
      cases hv1 : transformValue lib node with
      | error e1 =>
        cases hv2 : transformValue lib node2 with
        | error e2 =>
          exact hnone (by simp [listItemResult, hv1]) (by simp [listItemResult, hv2])
        | ok b => rw [hv1, hv2] at hV; exact absurd hV (by simp [sameResult])
      | ok a =>
        cases hv2 : transformValue lib node2 with
        | error e2 => rw [hv1, hv2] at hV; exact absurd hV (by simp [sameResult])
        | ok b =>
          rw [hv1, hv2] at hV
          by_cases ha : a = Any.nil
          · subst ha
            simp only [sameResult, Any.sameContents] at hV
            subst hV
            exact hnone (by simp [listItemResult, hv1]) (by simp [listItemResult, hv2])
          · have hb : b ≠ Any.nil := by
              intro hb
              subst hb
              exact ha (sameContents_nil_left a hV)
            have h1 : listItemResult lib (Any.map node) = some a := by
              cases a <;> simp [listItemResult, hv1] at ha ⊢
            have h2 : listItemResult lib (Any.map node2) = some b := by
              cases b <;> simp [listItemResult, hv2] at hb ⊢
            simp only [List.filterMap_cons, h1, h2]
            exact ⟨b, _, rfl, hV, ih⟩
    | slice items =>
      obtain ⟨items2, hw, _⟩ := hxy
      subst hw
      exact hnone (by simp [listItemResult]) (by simp [listItemResult])
    | nil =>
      simp only [Any.sameContents] at hxy; subst hxy
      exact hnone (by simp [listItemResult]) (by simp [listItemResult])
    | bool _ =>
      simp only [Any.sameContents] at hxy; subst hxy
      exact hnone (by simp [listItemResult]) (by simp [listItemResult])
    | float64 _ =>
      simp only [Any.sameContents] at hxy; subst hxy
      exact hnone (by simp [listItemResult]) (by simp [listItemResult])
    | int64 _ =>
      simp only [Any.sameContents] at hxy; subst hxy
      exact hnone (by simp [listItemResult]) (by simp [listItemResult])
    | string _ =>
      simp only [Any.sameContents] at hxy; subst hxy
      exact hnone (by simp [listItemResult]) (by simp [listItemResult])
end

theorem sameEntries_of_perm (es fs : List (String × Any)) (h : es.Perm fs) :
    Any.sameEntries es fs :=
  sameEntries_perm_right es es fs (sameEntries_refl es) h

theorem sameContents_map (es fs : List (String × Any)) (h : Any.sameEntries es fs) :
    Any.sameContents (Any.map es) (Any.map fs) := ⟨fs, rfl, h⟩

theorem sameContents_slice (xs ys : List Any) (h : Any.sameItems xs ys) :
    Any.sameContents (Any.slice xs) (Any.slice ys) := ⟨ys, rfl, h⟩

theorem sameEntries_single (k : String) (v w : Any) (h : Any.sameContents v w) :
    Any.sameEntries [(k, v)] [(k, w)] := ⟨w, [], List.Perm.refl _, h, rfl⟩

theorem sameItems_single (v w : Any) (h : Any.sameContents v w) :
    Any.sameItems [v] [w] := ⟨w, [], rfl, h, rfl⟩

theorem sameEntries_shuffleDoc : Any.sameEntries shuffleDoc shuffleDoc2 := by
  refine ⟨_, [_, _], @List.perm_append_comm _ [_, _] [_], sameContents_refl _,
    _, [_], List.Perm.swap _ _ _, ?_, _, [], List.Perm.refl _, ?_, rfl⟩
  · exact sameContents_map _ _ (sameEntries_single _ _ _
      (sameContents_map _ _ (sameEntries_of_perm _ _ (List.Perm.swap _ _ _))))
  · exact sameContents_map _ _ (sameEntries_single _ _ _ (sameContents_slice _ _
      (sameItems_single _ _ (sameContents_map _ _ (sameEntries_single _ _ _
        (sameContents_map _ _ (sameEntries_of_perm _ _ (List.Perm.swap _ _ _))))))))

/-- Counterexample to C16 as stated: the node `{"S": "a", "N": "1"}` visited in its two
orders gives the string "a" and the number 1, two outputs that do not have the same contents
although the two inputs do. -/
theorem transformMap_depends_on_node_order :
    Any.sameEntries [("k", Any.map [("S", Any.string "a"), ("N", Any.string "1")])]
        [("k", Any.map [("N", Any.string "1"), ("S", Any.string "a")])] ∧
      transformMap goLib [("k", Any.map [("S", Any.string "a"), ("N", Any.string "1")])]
        = .ok [("k", Any.string "a")] ∧
      transformMap goLib [("k", Any.map [("N", Any.string "1"), ("S", Any.string "a")])]
        = .ok [("k", Any.float64 (Float64.finite false (2 ^ 52) (-52)))] ∧
      ¬ Any.sameEntries [("k", Any.string "a")]
        [("k", Any.float64 (Float64.finite false (2 ^ 52) (-52)))] := by
  refine ⟨?_, rfl, rfl, ?_⟩
  · exact sameEntries_single _ _ _
      (sameContents_map _ _ (sameEntries_of_perm _ _ (List.Perm.swap _ _ _)))
  · rintro ⟨w, fs2, hperm, hw, _⟩
    simp only [Any.sameContents] at hw
    subst hw
    have hmem := hperm.symm.subset (List.mem_cons_self _ _)
    simp at hmem

/-- C16, amended: when the input follows the wire contract (no repeated key, and at most one
deciding entry in every tagged node, at every depth), the mapping returned by `transformMap`
depends on the contents of the document alone, up to the order of keys: two documents that
have the same contents up to the order of the entries of their mappings (the document, the
`M` payloads, the tagged nodes) give outputs with the same contents up to that order. -/
theorem transformMap_order_independent (lib : GoLib) (doc doc2 : GoMap)
    (hwire : wireDoc doc = true) (hwire2 : wireDoc doc2 = true)
    (hsame : Any.sameEntries doc doc2) :
    ∃ out out2, transformMap lib doc = .ok out ∧ transformMap lib doc2 = .ok out2 ∧
      Any.sameEntries out out2 := by
  simp only [wireDoc, Bool.and_eq_true, decide_eq_true_eq] at hwire hwire2
  refine ⟨doc.filterMap (mapEntryResult lib), doc2.filterMap (mapEntryResult lib), ?_, ?_, ?_⟩
  · simp [transformMap, transformMapLoop_nodup lib doc hwire.1]
  · simp [transformMap, transformMapLoop_nodup lib doc2 hwire2.1]
  · exact sameEntries_filterMap lib doc doc2 hsame ((wireValues_iff doc).mp hwire.2)
      ((wireValues_iff doc2).mp hwire2.2)

/-- Witness of C16 as amended: `shuffleDoc` and `shuffleDoc2`, the same document with the
entries of its mappings in two orders. -/
theorem transformMap_order_independent_witness :
    wireDoc shuffleDoc = true ∧ wireDoc shuffleDoc2 = true ∧
      Any.sameEntries shuffleDoc shuffleDoc2 ∧
      transformMap goLib shuffleDoc = .ok [("a", Any.string "x"),
        ("m", Any.map [("p", Any.float64 (Float64.finite false (2 ^ 52) (-52))),
          ("q", Any.bool true)]),
        ("l", Any.slice [Any.map [("u", Any.string "y"), ("v", Any.nil)]])] ∧
      transformMap goLib shuffleDoc2 = .ok [
        ("l", Any.slice [Any.map [("v", Any.nil), ("u", Any.string "y")]]),
        ("m", Any.map [("q", Any.bool true),
          ("p", Any.float64 (Float64.finite false (2 ^ 52) (-52)))]),
        ("a", Any.string "x")] ∧
      ∃ out out2, transformMap goLib shuffleDoc = .ok out ∧
        transformMap goLib shuffleDoc2 = .ok out2 ∧ Any.sameEntries out out2 :=
  ⟨by decide, by decide, sameEntries_shuffleDoc, rfl, rfl,
    transformMap_order_independent goLib shuffleDoc shuffleDoc2 (by decide) (by decide)
      sameEntries_shuffleDoc⟩
